import Mathlib

/-!
Verification of the ctrl-py storage engine against its design specification.

Part 1 embeds the chunked blob store (`ctrlpy/dao/datastore.py`):
fixed-size chunk objects held in a datastore collection, a sequence
object (chunk-uuid list plus logical size), and the `File` handle with
its seek/read/write/resize/truncate protocol.

Part 2 embeds the document/query layer (`ctrlpy/dao/document.py`):
index rows, `set_object` re-indexing, and `find_objuuids` expression
parsing and evaluation.

Bytes are modelled as `Nat`, byte arrays as `List Nat`, object uuids as
`Nat` (blob side) or `String` (document side).  The backing SQL store is
modelled as association lists; SQL `LIKE` is modelled by an explicit
pattern matcher.
-/

namespace Ctrlpy

/-- `CHUNK_SIZE` from `datastore.py`. -/
def CHUNK_SIZE : Nat := 65536

/-- The datastore collection, restricted to the chunk objects a single
`File` handle touches: an association list from object uuid to the
chunk byte array, plus a counter supplying fresh uuids. -/
structure DStore where
  objs : List (Nat × List Nat)
  next : Nat
deriving DecidableEq

/-- The empty datastore. -/
def DStore.empty : DStore := ⟨[], 0⟩

/-- `get_object(uuid).object["data"]`: look a chunk up by uuid
(valid states always contain the uuid; a missing uuid yields `[]`). -/
def DStore.get (s : DStore) (u : Nat) : List Nat :=
  ((s.objs.find? (fun p => p.1 == u)).map Prod.snd).getD []

/-- Whether a chunk object with the given uuid exists. -/
def DStore.has (s : DStore) (u : Nat) : Bool :=
  (s.objs.find? (fun p => p.1 == u)).isSome

/-- `chunk.set()`: update (SQL UPDATE) the stored byte array of an
existing chunk object. -/
def DStore.setObj (s : DStore) (u : Nat) (d : List Nat) : DStore :=
  ⟨s.objs.map (fun p => if p.1 == u then (u, d) else p), s.next⟩

/-- `chunk.destroy()`: delete the chunk object. -/
def DStore.delObj (s : DStore) (u : Nat) : DStore :=
  ⟨s.objs.filter (fun p => p.1 != u), s.next⟩

/-- `new_chunk(datastore)`: create and persist a fresh chunk object
holding `bytearray(CHUNK_SIZE)`; returns its uuid and the new store. -/
def DStore.newChunk (s : DStore) : Nat × DStore :=
  (s.next, ⟨(s.next, List.replicate CHUNK_SIZE 0) :: s.objs, s.next + 1⟩)

/-- The `File` handle state from `datastore.py`, field for field:
`__position`, `__chunk_position`, `__datastore`, the in-memory current
chunk (`__chunk`, split into its uuid and byte array), `__chunk_index`,
`__chunk_changed`, `__end_of_sequence`, `__following_write`, and the
in-memory sequence object (`__sequence`, split into its chunk-uuid list
and size). -/
structure File where
  position : Nat
  chunk_position : Nat
  store : DStore
  chunk_uuid : Nat
  chunk_data : List Nat
  chunk_index : Nat
  chunk_changed : Bool
  end_of_sequence : Bool
  following_write : Bool
  seq_chunks : List Nat
  seq_size : Nat
deriving DecidableEq

/-- `File.__init__` in the fresh-sequence branch: a new sequence with
one new blank chunk, cursor at 0, all flags clear. -/
def freshFile : File :=
  let p := DStore.empty.newChunk
  { position := 0
    chunk_position := 0
    store := p.2
    chunk_uuid := p.1
    chunk_data := List.replicate CHUNK_SIZE 0
    chunk_index := 0
    chunk_changed := false
    end_of_sequence := false
    following_write := false
    seq_chunks := [p.1]
    seq_size := 0 }

/-- `File.seek`: raises `IndexError` (modelled as `.error ()`) when the
position is negative or not below the sequence size; otherwise resolves
the chunk index, flushing the current chunk if dirty and loading the
target chunk when the chunk index changes, then sets the in-chunk
offset and position and clears `following_write` and
`end_of_sequence`. -/
def File.seek (f : File) (seek_position : Int) : Except Unit File :=
  if seek_position < 0 ∨ (f.seq_size : Int) ≤ seek_position then
    .error ()
  else
    let pn := seek_position.toNat
    let i := pn / CHUNK_SIZE
    let f1 :=
      if f.chunk_index = i then f
      else
        let st := if f.chunk_changed then f.store.setObj f.chunk_uuid f.chunk_data else f.store
        let u := f.seq_chunks.getD i 0
        { f with store := st, chunk_uuid := u, chunk_data := st.get u,
                 chunk_index := i, chunk_changed := false }
    .ok { f1 with chunk_position := pn % CHUNK_SIZE, position := pn,
                  following_write := false, end_of_sequence := false }

/-- The body of `File.read`'s loop: the fuel is the length of the
Python `range`, computed once on entry; each iteration appends the byte
at the current in-chunk offset and then seeks one byte forward,
catching `IndexError` by setting `end_of_sequence` and breaking. -/
def File.readLoop : Nat → File → List Nat × File
  | 0, f => ([], f)
  | Nat.succ k, f =>
    let b := f.chunk_data.getD f.chunk_position 0
    match f.seek ((f.position : Int) + 1) with
    | .ok f1 =>
      let r := File.readLoop k f1
      (b :: r.1, r.2)
    | .error _ => ([b], { f with end_of_sequence := true })

/-- `File.read`: returns `[]` at end of sequence; otherwise iterates
`range(position, size)` when `num_bytes` is omitted and
`range(position, position + num_bytes)` when given. -/
def File.read (f : File) (num_bytes : Option Nat) : List Nat × File :=
  if f.end_of_sequence then ([], f)
  else
    match num_bytes with
    | none => File.readLoop (f.seq_size - f.position) f
    | some n => File.readLoop n f

/-- The growth loop of `File.resize`: append the given number of fresh
blank chunks to the sequence. -/
def File.appendChunks (f : File) : Nat → File
  | 0 => f
  | Nat.succ k =>
    let p := f.store.newChunk
    File.appendChunks
      { f with store := p.2, seq_chunks := f.seq_chunks ++ [p.1] } k

/-- The shrink loop of `File.resize`: destroy the trailing chunk object
and pop its uuid, the given number of times. -/
def File.popChunks (f : File) : Nat → File
  | 0 => f
  | Nat.succ k =>
    let u := f.seq_chunks.getLastD 0
    File.popChunks
      { f with store := f.store.delObj u, seq_chunks := f.seq_chunks.dropLast } k

/-- `File.resize`: set the sequence size, then bring the chunk count to
`num_bytes / CHUNK_SIZE + 1` (integer division), appending fresh blank
chunks or destroying trailing chunks. -/
def File.resize (f : File) (num_bytes : Nat) : File :=
  let f1 := { f with seq_size := num_bytes }
  let num_chunks := num_bytes / CHUNK_SIZE + 1
  let exist := f1.seq_chunks.length
  if exist < num_chunks then f1.appendChunks (num_chunks - exist)
  else f1.popChunks (exist - num_chunks)

/-- `File.truncate`: `resize(position + 1)` when the size is omitted,
else `resize(num_bytes)`. -/
def File.truncate (f : File) (num_bytes : Option Nat) : File :=
  match num_bytes with
  | none => f.resize (f.position + 1)
  | some n => f.resize n

/-- One byte store of `File.write`'s loop body:
`chunk.object["data"][chunk_position] = b` plus marking the chunk
dirty. -/
def File.setByte (f : File) (b : Nat) : File :=
  { f with chunk_data := f.chunk_data.set f.chunk_position b,
           chunk_changed := true }

/-- The loop of `File.write`: store each buffer byte at the cursor and
seek one byte forward between stores (but not after the last one); a
seek failure propagates as in Python, where the `IndexError` escapes
`write`. -/
def File.writeLoop (f : File) : List Nat → Except Unit File
  | [] => .ok f
  | [b] => .ok (f.setByte b)
  | b :: b2 :: rest =>
    let f1 := f.setByte b
    match f1.seek ((f1.position : Int) + 1) with
    | .ok f2 => f2.writeLoop (b2 :: rest)
    | .error e => .error e

/-- `File.write`: grow the sequence first when the payload overruns the
size (with one extra byte of slack, plus a forward seek, when directly
following a previous write), then copy the bytes in and set
`following_write`. -/
def File.write (f : File) (buffer : List Nat) : Except Unit File :=
  if f.following_write = true ∧ 0 < buffer.length ∧
      f.seq_size < f.position + buffer.length + 1 then
    match (f.resize (f.position + buffer.length + 1)).seek
        (((f.resize (f.position + buffer.length + 1)).position : Int) + 1) with
    | .ok f2 =>
      match f2.writeLoop buffer with
      | .ok f3 => .ok { f3 with following_write := true }
      | .error e => .error e
    | .error e => .error e
  else if f.following_write = false ∧ 0 < buffer.length ∧
      f.seq_size < f.position + buffer.length then
    match (f.resize (f.position + buffer.length)).writeLoop buffer with
    | .ok f3 => .ok { f3 with following_write := true }
    | .error e => .error e
  else
    match f.writeLoop buffer with
    | .ok f3 => .ok { f3 with following_write := true }
    | .error e => .error e

/-- The logical byte at offset `i` of the blob, as seen through the
handle: the in-memory current chunk shadows its stored copy. -/
def File.byteAt (f : File) (i : Nat) : Nat :=
  if i / CHUNK_SIZE = f.chunk_index then f.chunk_data.getD (i % CHUNK_SIZE) 0
  else (f.store.get (f.seq_chunks.getD (i / CHUNK_SIZE) 0)).getD (i % CHUNK_SIZE) 0

/-- Well-formedness of a `File` handle: the chunk count matches the
size, chunk uuids are distinct, the current chunk is the one the chunk
index selects and is consistent with the cursor, every chunk object
exists in the store with capacity-many bytes, all chunk uuids are below
the fresh-uuid counter, and a clean in-memory chunk agrees with its
stored copy. -/
structure WF (f : File) : Prop where
  hlen : f.seq_chunks.length = f.seq_size / CHUNK_SIZE + 1
  hnodup : f.seq_chunks.Nodup
  hcur : f.seq_chunks.getD f.chunk_index 0 = f.chunk_uuid
  hcuridx : f.chunk_index < f.seq_chunks.length
  hdata : f.chunk_data.length = CHUNK_SIZE
  hstore : ∀ u ∈ f.seq_chunks, f.store.has u = true ∧ (f.store.get u).length = CHUNK_SIZE
  hnext : ∀ u ∈ f.seq_chunks, u < f.store.next
  hpos : f.chunk_position = f.position % CHUNK_SIZE
  hposidx : f.chunk_index = f.position / CHUNK_SIZE
  hclean : f.chunk_changed = false → f.chunk_data = f.store.get f.chunk_uuid

/-- The flushed store a chunk switch starts from. -/
def File.flushStore (f : File) : DStore :=
  if f.chunk_changed = true then f.store.setObj f.chunk_uuid f.chunk_data else f.store

/-- The state a successful `seek` produces, as a function. -/
def File.seekTo (f : File) (pn : Nat) : File :=
  let i := pn / CHUNK_SIZE
  let f1 :=
    if f.chunk_index = i then f
    else
      let st := f.flushStore
      let u := f.seq_chunks.getD i 0
      { f with store := st, chunk_uuid := u, chunk_data := st.get u,
               chunk_index := i, chunk_changed := false }
  { f1 with chunk_position := pn % CHUNK_SIZE, position := pn,
            following_write := false, end_of_sequence := false }

/-- One step of the growth loop, as a named function. -/
def File.pushChunk (f : File) : File :=
  let p := f.store.newChunk
  { f with store := p.2, seq_chunks := f.seq_chunks ++ [p.1] }

/-- Read the whole blob back from the start: seek to offset 0 (read in
place when the blob is empty, where seeking is impossible) and read to
the end, returning the bytes and the reported size. -/
def File.readBack (g : File) : Option (List Nat × Nat) :=
  if g.seq_size = 0 then some ((g.read none).1, g.seq_size)
  else
    match g.seek 0 with
    | .ok g1 => some ((g1.read none).1, g1.seq_size)
    | .error _ => none

/-- Round trip on a fresh handle: write the buffer at offset 0, then
read the blob back. -/
def roundTrip (buf : List Nat) : Option (List Nat × Nat) :=
  match freshFile.write buf with
  | .ok g => g.readBack
  | .error _ => none

/-- The chunk-count relation the code maintains:
`len(chunks) = size / CHUNK_SIZE + 1` (floor division). -/
def ChunksInv (f : File) : Prop :=
  f.seq_chunks.length = f.seq_size / CHUNK_SIZE + 1

/-- States reachable through the blob-store operations named by the
specification: creating a fresh `File`, `write`, `resize`,
`truncate`. -/
inductive Reach : File → Prop where
  | fresh : Reach freshFile
  | write {f g : File} (buf : List Nat) : Reach f → f.write buf = .ok g → Reach g
  | resize {f : File} (n : Nat) : Reach f → Reach (f.resize n)
  | truncate {f : File} (n : Option Nat) : Reach f → Reach (f.truncate n)

/-!
### Part 2: document store and query engine (`ctrlpy/dao/document.py`)

Index rows mirror TBL_INDEX; uuids and attribute names are `String`,
stored index values and query operands are `List Char`.  SQL `LIKE`
(as issued by the contains/startswith/endswith branches) is modelled by
an explicit pattern matcher over `%` and `_`; see `likeMatch` for the
handling of the backslash escape.
-/

/-- Modelled from the spec: the `Operator` enumeration lives in
`ctrlpy/dao/utils.py`, which is not among the provided sources; the
spec (§4.2) and the `find_objuuids` docstring list exactly these
operators. -/
inductive Operator where
  | EQ | GT | GTE | LT | LTE | CONTAINS | INSIDE | STARTSWITH | ENDSWITH | REGEX
deriving DecidableEq

/-- Modelled from the spec: `Operator[token.upper()]` name lookup on
the enumeration above (a `KeyError` — `none` — for any other token). -/
def parseOpName (tok : List Char) : Option Operator :=
  let t := tok.map Char.toUpper
  if t = "EQ".toList then some .EQ
  else if t = "GT".toList then some .GT
  else if t = "GTE".toList then some .GTE
  else if t = "LT".toList then some .LT
  else if t = "LTE".toList then some .LTE
  else if t = "CONTAINS".toList then some .CONTAINS
  else if t = "INSIDE".toList then some .INSIDE
  else if t = "STARTSWITH".toList then some .STARTSWITH
  else if t = "ENDSWITH".toList then some .ENDSWITH
  else if t = "REGEX".toList then some .REGEX
  else none

/-- The two hard errors `find_objuuids` raises while validating an
expression: `KeyError` from the operator lookup, `ValueError` for an
operator token without `:` separator. -/
inductive QueryError where
  | keyError | valueError
deriving DecidableEq

/-- The expression scan of `find_objuuids` (document.py:245-279):
detect `$!`/`$` at the start, find the first `:`, look the operator
token up (hard `KeyError` when unknown), or fall back to an implicit
equality on the whole expression when no operator prefix is present;
a `$` prefix without `:` is a hard `ValueError`. -/
def parseExpression (e : List Char) : Except QueryError (Operator × Bool × List Char) :=
  let opStart : Option (Nat × Bool) :=
    match e with
    | '$' :: '!' :: _ => some (2, true)
    | '$' :: _ => some (1, false)
    | _ => none
  let opStop : Option Nat := e.findIdx? (fun c => c == ':')
  match opStart, opStop with
  | some st, some sp =>
    if sp ≠ 0 then
      match parseOpName ((e.drop st.1).take (sp - st.1)) with
      | some op => .ok (op, st.2, e.drop (sp + 1))
      | none => .error .keyError
    else .error .valueError
  | some _, none => .error .valueError
  | none, _ => .ok (.EQ, false, e)

/-- All suffixes of a string, the string itself first. -/
def suffixes : List Char → List (List Char)
  | [] => [[]]
  | a :: t => (a :: t) :: suffixes t

/-- SQL `LIKE` pattern matching as the backing store evaluates it:
`%` matches any (possibly empty) run — the rest of the pattern must
match some suffix — `_` matches any single character, anything else
matches itself (standard LIKE without an escape clause; PostgreSQL's
default backslash escape differs only on patterns containing a
backslash, and every theorem below restricts the operand to characters
other than `%`, `_` and the backslash, where the two semantics
coincide). -/
def likeMatch : List Char → (List Char → Bool)
  | [] => fun s => s.isEmpty
  | c :: p =>
    if c = '%' then fun s => (suffixes s).any (likeMatch p)
    else if c = '_' then fun s =>
      (match s with
       | [] => false
       | _ :: t => likeMatch p t)
    else fun s =>
      (match s with
       | [] => false
       | a :: t => a == c && likeMatch p t)

/-- A row of TBL_INDEX: object uuid, collection uuid, attribute name,
stringified indexed value. -/
structure IndexRow where
  objuuid : String
  coluuid : String
  attr : String
  value : List Char
deriving DecidableEq

/-- The rows a per-clause SELECT ranges over:
`where ATTRIBUTE = a and COLUUID = c`. -/
def rowsFor (idx : List IndexRow) (c a : String) : List IndexRow :=
  idx.filter (fun r => r.attr == a && r.coluuid == c)

/-- One query clause of `find_objuuids` (document.py:282-390): the
equality and pattern operators filter in SQL (`=`, `!=`, `like`,
`not like` with `%subject%` / `subject%` / `%subject`); the remaining
operators (gt/gte/lt/lte/inside/regex) scan all rows for the attribute
and apply the Python comparison, whose outcome (or raised-and-caught
exception, `none`) is the abstract `cmp` parameter — those comparisons
live in `utils.py`/`re`, outside the provided sources. -/
def evalClause (cmp : Operator → List Char → List Char → Option Bool)
    (idx : List IndexRow) (c a : String) (op : Operator) (neg : Bool)
    (subject : List Char) : List String :=
  match op, neg with
  | .EQ, false =>
    ((rowsFor idx c a).filter (fun r => r.value == subject)).map IndexRow.objuuid
  | .EQ, true =>
    ((rowsFor idx c a).filter (fun r => r.value != subject)).map IndexRow.objuuid
  | .CONTAINS, false =>
    ((rowsFor idx c a).filter
      (fun r => likeMatch ('%' :: (subject ++ ['%'])) r.value)).map IndexRow.objuuid
  | .CONTAINS, true =>
    ((rowsFor idx c a).filter
      (fun r => ! likeMatch ('%' :: (subject ++ ['%'])) r.value)).map IndexRow.objuuid
  | .STARTSWITH, false =>
    ((rowsFor idx c a).filter
      (fun r => likeMatch (subject ++ ['%']) r.value)).map IndexRow.objuuid
  | .STARTSWITH, true =>
    ((rowsFor idx c a).filter
      (fun r => ! likeMatch (subject ++ ['%']) r.value)).map IndexRow.objuuid
  | .ENDSWITH, false =>
    ((rowsFor idx c a).filter
      (fun r => likeMatch ('%' :: subject) r.value)).map IndexRow.objuuid
  | .ENDSWITH, true =>
    ((rowsFor idx c a).filter
      (fun r => ! likeMatch ('%' :: subject) r.value)).map IndexRow.objuuid
  | _, _ =>
    (rowsFor idx c a).filterMap (fun r =>
      match cmp op r.value subject with
      | some b => if b || (neg && !b) then some r.objuuid else none
      | none => none)

/-- The clause loop of `find_objuuids`, with an access counter: each
clause first has its expression validated (a malformed clause raises
before its own SELECT), then executes exactly one SELECT against the
backing store; the result is the list of per-clause objuuid lists. -/
def processQueries (cmp : Operator → List Char → List Char → Option Bool)
    (idx : List IndexRow) (c : String) :
    List (String × List Char) → Nat × Except QueryError (List (List String))
  | [] => (0, .ok [])
  | (a, e) :: rest =>
    match parseExpression e with
    | .error err => (0, .error err)
    | .ok (op, neg, subj) =>
      match processQueries cmp idx c rest with
      | (n, .ok ls) => (n + 1, .ok (evalClause cmp idx c a op neg subj :: ls))
      | (n, .error err) => (n + 1, .error err)

/-- `list(set(lists[0]) & set(lists[1]) & ...)`, with `[]` for no
clauses: membership-faithful model of the Python set intersection
(the Python list order is unspecified; here duplicates are erased and
the first list's order kept). -/
def intersectLists : List (List String) → List String
  | [] => []
  | l :: ls => (l.dedup).filter (fun u => ls.all (fun m => m.contains u))

/-- `Document.find_objuuids`, over already-split (attribute,
expression) clauses, returning the number of backing-store SELECTs
executed together with the result or the raised error. -/
def find_objuuids (cmp : Operator → List Char → List Char → Option Bool)
    (idx : List IndexRow) (c : String)
    (queries : List (String × List Char)) : Nat × Except QueryError (List String) :=
  match processQueries cmp idx c queries with
  | (n, .ok ls) => (n, .ok (intersectLists ls))
  | (n, .error e) => (n, .error e)

/-- The parts of `set_object`'s world that live outside the provided
sources, kept abstract: `injectIds` is the mutation
`updated_object["objuuid"] = objuuid; updated_object["coluuid"] = coluuid`
composed with pickling (a pure function of its arguments), and
`extract path value` is `str(read_key_at_path(path, value))`
(`utils.py`, absent from src), returning `none` when the extraction
raises `KeyError`/`IndexError`/`ValueError`/`TypeError`. -/
structure DocModel (V : Type) where
  injectIds : String → String → V → V
  extract : String → V → Option (List Char)

/-- The backing-store state `set_object` touches: TBL_OBJECTS rows
(objuuid, coluuid, value), TBL_ATTRIBUTES rows (coluuid, attribute,
path), TBL_INDEX rows. -/
structure DocState (V : Type) where
  objects : List (String × String × V)
  attributes : List (String × String × String)
  index : List IndexRow

/-- `get_object`: select the stored row for an objuuid (`none` is the
`IndexError` on a missing object). -/
def lookupObj {V : Type} (s : DocState V) (o : String) : Option (String × V) :=
  (s.objects.find? (fun p => p.1 == o)).map (fun p => p.2)

/-- `list_attributes(coluuid)`: the (attribute, path) pairs declared
for the collection, in table order. -/
def list_attributes {V : Type} (s : DocState V) (c : String) : List (String × String) :=
  s.attributes.filterMap (fun t => if t.1 == c then some t.2 else none)

/-- `Document.set_object` (document.py:99-143): update the object row
in place (UPDATE ... where OBJUUID, keeping the row's COLUUID column),
delete every index row of this objuuid, then for each declared
attribute of the collection re-read the object and insert one index
row holding the stringified extracted value; an extraction failure
(or a missing object) skips only that attribute, recording a warning.
Returns the new state and the warned attribute names. -/
def set_object {V : Type} (M : DocModel V) (s : DocState V) (c o : String) (v : V) :
    DocState V × List String :=
  let stored := M.injectIds o c v
  let objects1 := s.objects.map (fun p => if p.1 == o then (o, (p.2.1, stored)) else p)
  let index1 := s.index.filter (fun r => r.objuuid != o)
  let s1 : DocState V := ⟨objects1, s.attributes, index1⟩
  let step := fun (acc : List IndexRow × List String) (ap : String × String) =>
    match lookupObj s1 o with
    | some pv =>
      match M.extract ap.2 pv.2 with
      | some str => (acc.1 ++ [⟨o, c, ap.1, str⟩], acc.2)
      | none => (acc.1, acc.2 ++ [ap.1])
    | none => (acc.1, acc.2 ++ [ap.1])
  let res := (list_attributes s1 c).foldl step ([], [])
  (⟨objects1, s.attributes, index1 ++ res.1⟩, res.2)

/-- A pattern (or operand) with no LIKE metacharacter: no `%`, no `_`,
no backslash. -/
def plainPattern (q : List Char) : Prop := ∀ ch ∈ q, ch ≠ '%' ∧ ch ≠ '_' ∧ ch ≠ '\\'

/-- A degenerate comparison oracle for concrete instances: every
typed comparison raises (is skipped). -/
def cmpNone : Operator → List Char → List Char → Option Bool := fun _ _ _ => none

/-- A tiny concrete document model for witnesses: values are naturals,
id-stamping is a no-op, and extraction succeeds only on path `p`. -/
def MW : DocModel Nat :=
  ⟨fun _ _ v => v, fun path _ => if path = "p" then some ['1'] else none⟩

/-- A tiny concrete document state for witnesses: one object in
collection `c1`, one declared attribute `k` at path `p`, empty index. -/
def sW : DocState Nat := ⟨[("o1", ("c1", 5))], [("c1", "k", "p")], []⟩

/-! ### Store lemmas -/

theorem DStore.next_setObj (s : DStore) (u : Nat) (d : List Nat) :
    (s.setObj u d).next = s.next := rfl

theorem find?_map_upd (t : List (Nat × List Nat)) (u v : Nat) (d : List Nat) :
    List.find? (fun p => p.1 == v) (t.map (fun p => if p.1 == u then (u, d) else p))
      = (List.find? (fun p => p.1 == v) t).map (fun p => if p.1 == u then (u, d) else p) := by
  rw [List.find?_map]
  have hpred : ((fun p : Nat × List Nat => p.1 == v) ∘
      (fun p => if p.1 == u then (u, d) else p)) = (fun p : Nat × List Nat => p.1 == v) := by
    funext p
    by_cases h1 : p.1 = u
    · simp [Function.comp, h1]
    · simp [Function.comp, h1]
  rw [hpred]

theorem DStore.has_setObj (s : DStore) (u v : Nat) (d : List Nat) :
    (s.setObj u d).has v = s.has v := by
  simp only [DStore.setObj, DStore.has, find?_map_upd]
  cases List.find? (fun p => p.1 == v) s.objs <;> rfl

theorem DStore.find?_key (t : List (Nat × List Nat)) (v : Nat) (p : Nat × List Nat)
    (h : List.find? (fun q => q.1 == v) t = some p) : p.1 = v := by
  have h2 := List.find?_some h
  simpa using h2

theorem DStore.get_setObj_self (s : DStore) (u : Nat) (d : List Nat)
    (h : s.has u = true) : (s.setObj u d).get u = d := by
  simp only [DStore.has, Option.isSome_iff_exists] at h
  obtain ⟨p, hp⟩ := h
  have hk : p.1 = u := DStore.find?_key _ _ _ hp
  simp only [DStore.setObj, DStore.get]
  rw [find?_map_upd, hp]
  simp [hk]

theorem DStore.get_setObj_ne (s : DStore) (u v : Nat) (d : List Nat)
    (h : v ≠ u) : (s.setObj u d).get v = s.get v := by
  simp only [DStore.setObj, DStore.get, find?_map_upd]
  cases hf : List.find? (fun q => q.1 == v) s.objs with
  | none => rfl
  | some p =>
    have hk : p.1 = v := DStore.find?_key _ _ _ hf
    have h2 : ¬ p.1 = u := fun hh => h (hk ▸ hh)
    simp [h2]

theorem DStore.next_newChunk (s : DStore) : (s.newChunk).2.next = s.next + 1 := rfl

theorem DStore.fst_newChunk (s : DStore) : (s.newChunk).1 = s.next := rfl

theorem DStore.get_newChunk_self (s : DStore) :
    (s.newChunk).2.get (s.newChunk).1 = List.replicate CHUNK_SIZE 0 := by
  simp [DStore.newChunk, DStore.get, List.find?]

theorem DStore.has_newChunk_self (s : DStore) :
    (s.newChunk).2.has (s.newChunk).1 = true := by
  simp [DStore.newChunk, DStore.has, List.find?]

theorem DStore.get_newChunk_lt (s : DStore) (u : Nat) (h : u < s.next) :
    (s.newChunk).2.get u = s.get u := by
  have h1 : ¬ s.next = u := fun hh => absurd (hh ▸ h) (lt_irrefl u)
  have h2 : (s.next == u) = false := beq_eq_false_iff_ne.mpr h1
  simp [DStore.newChunk, DStore.get, List.find?, h2]

theorem DStore.has_newChunk_lt (s : DStore) (u : Nat) (h : u < s.next) :
    (s.newChunk).2.has u = s.has u := by
  have h1 : ¬ s.next = u := fun hh => absurd (hh ▸ h) (lt_irrefl u)
  have h2 : (s.next == u) = false := beq_eq_false_iff_ne.mpr h1
  simp [DStore.newChunk, DStore.has, List.find?, h2]

/-! ### Seek lemmas -/

theorem CHUNK_SIZE_pos : 0 < CHUNK_SIZE := by decide

theorem getD_mem {l : List Nat} {i : Nat} (h : i < l.length) : l.getD i 0 ∈ l := by
  rw [List.getD_eq_getElem l 0 h]
  exact List.getElem_mem h

theorem getD_nodup_ne {l : List Nat} (hn : l.Nodup) {i j : Nat}
    (hi : i < l.length) (hj : j < l.length) (hij : i ≠ j) :
    l.getD i 0 ≠ l.getD j 0 := by
  rw [List.getD_eq_getElem l 0 hi, List.getD_eq_getElem l 0 hj]
  intro hh
  exact hij ((@List.Nodup.getElem_inj_iff _ l hn i hi j hj).mp hh)

theorem File.seek_error_iff (f : File) (p : Int) :
    (∃ e, f.seek p = .error e) ↔ (p < 0 ∨ (f.seq_size : Int) ≤ p) := by
  unfold File.seek
  split
  · next hc => simpa using hc
  · next hc => simpa using hc


theorem File.seek_eq (f : File) (p : Int) :
    f.seek p = if p < 0 ∨ (f.seq_size : Int) ≤ p then .error ()
      else .ok (f.seekTo p.toNat) := by
  unfold File.seek File.seekTo File.flushStore
  rfl

theorem File.seek_ok_elim {f : File} {p : Int} {g : File} (h : f.seek p = .ok g) :
    g = f.seekTo p.toNat ∧ 0 ≤ p ∧ p < (f.seq_size : Int) := by
  rw [File.seek_eq] at h
  by_cases hc : (p < 0 ∨ (f.seq_size : Int) ≤ p)
  · rw [if_pos hc] at h
    exact absurd h (by simp)
  · rw [if_neg hc] at h
    push_neg at hc
    exact ⟨(Except.ok.injEq _ _).mp h |>.symm, hc.1, hc.2⟩

/-- Structural facts about the post-seek state that do not need
well-formedness. -/
theorem File.seekTo_spec (f : File) (pn : Nat) :
    (f.seekTo pn).position = pn ∧ (f.seekTo pn).chunk_position = pn % CHUNK_SIZE ∧
    (f.seekTo pn).chunk_index = pn / CHUNK_SIZE ∧
    (f.seekTo pn).end_of_sequence = false ∧
    (f.seekTo pn).following_write = false ∧
    (f.seekTo pn).seq_chunks = f.seq_chunks ∧
    (f.seekTo pn).seq_size = f.seq_size ∧
    (f.seekTo pn).store.next = f.store.next := by
  unfold File.seekTo File.flushStore
  by_cases hie : f.chunk_index = pn / CHUNK_SIZE
  · simp [if_pos hie, hie]
  · simp only [if_neg hie, true_and]
    cases f.chunk_changed <;> rfl

theorem File.seekTo_wf {f : File} {pn : Nat} (hwf : WF f)
    (hpns : pn < f.seq_size) : WF (f.seekTo pn) := by
  have hidx : pn / CHUNK_SIZE < f.seq_chunks.length := by
    rw [hwf.hlen]
    exact Nat.lt_succ_of_le (Nat.div_le_div_right (le_of_lt hpns))
  unfold File.seekTo
  by_cases hie : f.chunk_index = pn / CHUNK_SIZE
  · simp only [if_pos hie]
    exact ⟨hwf.hlen, hwf.hnodup, hwf.hcur, hwf.hcuridx, hwf.hdata, hwf.hstore,
      hwf.hnext, rfl, hie ▸ rfl, hwf.hclean⟩
  · simp only [if_neg hie]
    have hcmem : f.chunk_uuid ∈ f.seq_chunks := hwf.hcur ▸ getD_mem hwf.hcuridx
    have humem : f.seq_chunks.getD (pn / CHUNK_SIZE) 0 ∈ f.seq_chunks :=
      getD_mem hidx
    have hsh : ∀ w, (f.flushStore).has w = f.store.has w := by
      intro w
      unfold File.flushStore
      cases f.chunk_changed
      · rfl
      · simp [DStore.has_setObj]
    have hsnext : (f.flushStore).next = f.store.next := by
      unfold File.flushStore
      cases f.chunk_changed <;> rfl
    have hsglen : ∀ w ∈ f.seq_chunks, ((f.flushStore).get w).length = CHUNK_SIZE := by
      intro w hw
      unfold File.flushStore
      cases hch : f.chunk_changed
      · simp only [Bool.false_eq_true, if_false]
        exact (hwf.hstore w hw).2
      · simp only [if_true]
        by_cases hwc : w = f.chunk_uuid
        · rw [hwc, DStore.get_setObj_self _ _ _ (hwf.hstore _ hcmem).1]
          exact hwf.hdata
        · rw [DStore.get_setObj_ne _ _ _ _ hwc]
          exact (hwf.hstore w hw).2
    refine ⟨hwf.hlen, hwf.hnodup, rfl, hidx, hsglen _ humem, ?_, ?_, rfl, rfl, ?_⟩
    · intro w hw
      exact ⟨(hsh w).trans (hwf.hstore w hw).1, hsglen w hw⟩
    · intro w hw
      have hn2 := hwf.hnext w hw
      show w < (f.flushStore).next
      rw [hsnext]
      exact hn2
    · intro _
      rfl

/-- A seek leaves every logical byte of the blob unchanged. -/
theorem File.seekTo_byteAt {f : File} {pn : Nat} (hwf : WF f)
    (hpns : pn < f.seq_size) (i : Nat)
    (hi : i / CHUNK_SIZE < f.seq_chunks.length) :
    (f.seekTo pn).byteAt i = f.byteAt i := by
  have hidx : pn / CHUNK_SIZE < f.seq_chunks.length := by
    rw [hwf.hlen]
    exact Nat.lt_succ_of_le (Nat.div_le_div_right (le_of_lt hpns))
  unfold File.seekTo
  by_cases hie : f.chunk_index = pn / CHUNK_SIZE
  · simp only [if_pos hie]
    rfl
  · simp only [if_neg hie]
    have hcmem : f.chunk_uuid ∈ f.seq_chunks := hwf.hcur ▸ getD_mem hwf.hcuridx
    have huc : f.seq_chunks.getD (pn / CHUNK_SIZE) 0 ≠ f.chunk_uuid := by
      rw [← hwf.hcur]
      exact getD_nodup_ne hwf.hnodup hidx hwf.hcuridx (fun hh => hie hh.symm)
    have hstc : (f.flushStore).get f.chunk_uuid = f.chunk_data := by
      unfold File.flushStore
      cases hch : f.chunk_changed
      · simp only [Bool.false_eq_true, if_false]
        exact (hwf.hclean hch).symm
      · simp only [if_true]
        exact DStore.get_setObj_self _ _ _ (hwf.hstore _ hcmem).1
    have hstne : ∀ w, w ≠ f.chunk_uuid → (f.flushStore).get w = f.store.get w := by
      intro w hw
      unfold File.flushStore
      cases f.chunk_changed
      · rfl
      · simp only [if_true]
        exact DStore.get_setObj_ne _ _ _ _ hw
    unfold File.byteAt
    simp only
    by_cases hci : i / CHUNK_SIZE = pn / CHUNK_SIZE
    · rw [if_pos hci, if_neg (fun hh => hie (hh.symm.trans hci))]
      rw [hci, hstne _ huc]
    · rw [if_neg hci]
      by_cases hco : i / CHUNK_SIZE = f.chunk_index
      · rw [if_pos hco, hco, hwf.hcur, hstc]
      · rw [if_neg hco]
        have hwne : f.seq_chunks.getD (i / CHUNK_SIZE) 0 ≠ f.chunk_uuid := by
          rw [← hwf.hcur]
          exact getD_nodup_ne hwf.hnodup hi hwf.hcuridx hco
        rw [hstne _ hwne]

/-! ### Read lemmas -/

theorem File.byteAt_position {f : File} (hwf : WF f) :
    f.chunk_data.getD f.chunk_position 0 = f.byteAt f.position := by
  unfold File.byteAt
  rw [if_pos hwf.hposidx.symm, hwf.hpos]

theorem File.div_lt_chunks {f : File} (hwf : WF f) {i : Nat} (hi : i ≤ f.seq_size) :
    i / CHUNK_SIZE < f.seq_chunks.length := by
  rw [hwf.hlen]
  exact Nat.lt_succ_of_le (Nat.div_le_div_right hi)

theorem File.seek_succ_ok {f : File} (hlt : f.position + 1 < f.seq_size) :
    f.seek ((f.position : Int) + 1) = .ok (f.seekTo (f.position + 1)) := by
  rw [File.seek_eq, if_neg (by omega)]
  have h1 : ((f.position : Int) + 1).toNat = f.position + 1 := by omega
  rw [h1]

theorem File.seek_succ_error {f : File} (hge : f.seq_size ≤ f.position + 1) :
    f.seek ((f.position : Int) + 1) = .error () := by
  rw [File.seek_eq, if_pos (by omega)]

/-- Full characterisation of the read loop from a well-formed state with
the cursor strictly inside the data: it returns the `min k (size - pos)`
logical bytes starting at the cursor and sets `end_of_sequence` exactly
when at least one byte was requested and the read ran to the end. -/
theorem File.readLoop_spec : ∀ (k : Nat) (f : File), WF f →
    f.end_of_sequence = false → f.position < f.seq_size →
    (File.readLoop k f).1
        = (List.range' f.position (min k (f.seq_size - f.position))).map f.byteAt ∧
      (File.readLoop k f).2.end_of_sequence
        = (decide (0 < k) && decide (f.seq_size ≤ f.position + k)) ∧
      (File.readLoop k f).2.seq_size = f.seq_size := by
  intro k
  induction k with
  | zero =>
    intro f hwf hend hps
    refine ⟨by simp [File.readLoop], ?_, rfl⟩
    show f.end_of_sequence = _
    simp [hend]
  | succ k ih =>
    intro f hwf hend hps
    by_cases hsend : f.seq_size ≤ f.position + 1
    · unfold File.readLoop
      rw [File.seek_succ_error hsend]
      refine ⟨?_, ?_, rfl⟩
      · show [f.chunk_data.getD f.chunk_position 0] = _
        have h1 : min (k + 1) (f.seq_size - f.position) = 1 := by omega
        rw [h1, List.range'_one, List.map_cons, List.map_nil,
          File.byteAt_position hwf]
      · show true = _
        rw [decide_eq_true (by omega : 0 < k + 1),
          decide_eq_true (by omega : f.seq_size ≤ f.position + (k + 1))]
        rfl
    · push_neg at hsend
      have hok := File.seek_succ_ok hsend
      have hg := File.seekTo_spec f (f.position + 1)
      obtain ⟨hgp, _, _, hgend, _, hgchunks, hgsize, _⟩ := hg
      have hgwf := File.seekTo_wf hwf (show f.position + 1 < f.seq_size by omega)
      have ihg := ih (f.seekTo (f.position + 1)) hgwf hgend (by rw [hgp, hgsize]; omega)
      obtain ⟨ih1, ih2, ih3⟩ := ihg
      unfold File.readLoop
      rw [hok]
      refine ⟨?_, ?_, ?_⟩
      · show f.chunk_data.getD f.chunk_position 0
            :: (File.readLoop k (f.seekTo (f.position + 1))).1 = _
        rw [ih1, hgp, hgsize]
        have hmin : min (k + 1) (f.seq_size - f.position)
            = min k (f.seq_size - (f.position + 1)) + 1 := by omega
        rw [hmin, List.range'_succ, List.map_cons, File.byteAt_position hwf]
        congr 1
        apply List.map_congr_left
        intro a ha
        rw [List.mem_range'_1] at ha
        exact File.seekTo_byteAt hwf (by omega) a
          (File.div_lt_chunks hwf (by omega))
      · show (File.readLoop k (f.seekTo (f.position + 1))).2.end_of_sequence = _
        rw [ih2, hgp, hgsize]
        rcases Nat.eq_zero_or_pos k with hk | hk
        · subst hk
          have hns : ¬ f.seq_size ≤ f.position + 1 := by omega
          simp [hns]
        · rw [decide_eq_true hk, decide_eq_true (by omega : 0 < k + 1),
            Bool.true_and, Bool.true_and]
          simp only [decide_eq_decide]
          omega
      · show (File.readLoop k (f.seekTo (f.position + 1))).2.seq_size = _
        rw [ih3, hgsize]

/-! ### Write lemmas -/

theorem File.setByte_wf {f : File} (hwf : WF f) (b : Nat) : WF (f.setByte b) :=
  ⟨hwf.hlen, hwf.hnodup, hwf.hcur, hwf.hcuridx,
    (List.length_set _ _ _).trans hwf.hdata, hwf.hstore, hwf.hnext,
    hwf.hpos, hwf.hposidx, fun hch => absurd hch (by simp [File.setByte])⟩

theorem File.setByte_fields (f : File) (b : Nat) :
    (f.setByte b).position = f.position ∧ (f.setByte b).seq_size = f.seq_size ∧
    (f.setByte b).seq_chunks = f.seq_chunks ∧
    (f.setByte b).end_of_sequence = f.end_of_sequence := ⟨rfl, rfl, rfl, rfl⟩

theorem File.byteAt_setByte {f : File} (hwf : WF f) (b : Nat) (i : Nat) :
    (f.setByte b).byteAt i = if i = f.position then b else f.byteAt i := by
  unfold File.byteAt File.setByte
  simp only
  by_cases hip : i = f.position
  · subst hip
    rw [if_pos hwf.hposidx.symm, if_pos rfl, hwf.hpos]
    have hlt : f.position % CHUNK_SIZE < f.chunk_data.length := by
      rw [hwf.hdata]
      exact Nat.mod_lt _ CHUNK_SIZE_pos
    simp [List.getD_eq_getElem?_getD, List.getElem?_set_self, hlt]
  · rw [if_neg hip]
    by_cases hic : i / CHUNK_SIZE = f.chunk_index
    · rw [if_pos hic, if_pos hic]
      have hne : i % CHUNK_SIZE ≠ f.chunk_position := by
        rw [hwf.hpos]
        have h3 : i / CHUNK_SIZE = f.position / CHUNK_SIZE := hic.trans hwf.hposidx
        have hc : CHUNK_SIZE = 65536 := rfl
        rw [hc] at h3 ⊢
        intro hmod
        exact hip (by omega)
      simp [List.getD_eq_getElem?_getD, List.getElem?_set_ne (Ne.symm hne)]
    · rw [if_neg hic, if_neg hic]


theorem File.appendChunks_succ (f : File) (k : Nat) :
    f.appendChunks (k + 1) = (f.pushChunk).appendChunks k := rfl

/-- The fields `appendChunks` leaves untouched. -/
theorem File.appendChunks_fields : ∀ (k : Nat) (f : File),
    (f.appendChunks k).position = f.position ∧
    (f.appendChunks k).chunk_position = f.chunk_position ∧
    (f.appendChunks k).chunk_index = f.chunk_index ∧
    (f.appendChunks k).chunk_data = f.chunk_data ∧
    (f.appendChunks k).chunk_changed = f.chunk_changed ∧
    (f.appendChunks k).chunk_uuid = f.chunk_uuid ∧
    (f.appendChunks k).end_of_sequence = f.end_of_sequence ∧
    (f.appendChunks k).following_write = f.following_write ∧
    (f.appendChunks k).seq_size = f.seq_size := by
  intro k
  induction k with
  | zero => exact fun f => ⟨rfl, rfl, rfl, rfl, rfl, rfl, rfl, rfl, rfl⟩
  | succ k ih =>
    intro f
    exact ih _

theorem File.appendChunks_seq : ∀ (k : Nat) (f : File),
    ∃ ext : List Nat, (f.appendChunks k).seq_chunks = f.seq_chunks ++ ext ∧
      ext.length = k := by
  intro k
  induction k with
  | zero => exact fun f => ⟨[], by simp [File.appendChunks], rfl⟩
  | succ k ih =>
    intro f
    obtain ⟨ext, hext, hlen⟩ := ih f.pushChunk
    refine ⟨f.store.newChunk.1 :: ext, ?_, by simp [hlen]⟩
    rw [File.appendChunks_succ, hext]
    show f.seq_chunks ++ [f.store.newChunk.1] ++ ext = _
    simp

theorem File.appendChunks_store : ∀ (k : Nat) (f : File) (u : Nat),
    u < f.store.next →
    ((f.appendChunks k).store.get u = f.store.get u ∧
     (f.appendChunks k).store.has u = f.store.has u ∧
     f.store.next ≤ (f.appendChunks k).store.next) := by
  intro k
  induction k with
  | zero => exact fun f u _ => ⟨rfl, rfl, le_refl _⟩
  | succ k ih =>
    intro f u hu
    have hpn : f.pushChunk.store.next = f.store.next + 1 := rfl
    have h1 := ih f.pushChunk u (by rw [hpn]; omega)
    rw [File.appendChunks_succ]
    refine ⟨?_, ?_, ?_⟩
    · rw [h1.1]
      exact DStore.get_newChunk_lt _ _ hu
    · rw [h1.2.1]
      exact DStore.has_newChunk_lt _ _ hu
    · have h2 := h1.2.2
      rw [hpn] at h2
      omega

/-- `appendChunks` preserves the chunk-list invariants: distinct uuids,
all below the uuid counter, all present in the store with
capacity-sized data. -/
theorem File.appendChunks_inv : ∀ (k : Nat) (f : File),
    f.seq_chunks.Nodup →
    (∀ u ∈ f.seq_chunks, u < f.store.next) →
    (∀ u ∈ f.seq_chunks, f.store.has u = true ∧ (f.store.get u).length = CHUNK_SIZE) →
    ((f.appendChunks k).seq_chunks.Nodup ∧
     (∀ u ∈ (f.appendChunks k).seq_chunks, u < (f.appendChunks k).store.next) ∧
     (∀ u ∈ (f.appendChunks k).seq_chunks,
        (f.appendChunks k).store.has u = true ∧
        ((f.appendChunks k).store.get u).length = CHUNK_SIZE)) := by
  intro k
  induction k with
  | zero => exact fun f h1 h2 h3 => ⟨h1, h2, h3⟩
  | succ k ih =>
    intro f hnd hnx hst
    have hnew : f.store.newChunk.1 = f.store.next := rfl
    apply ih
    · simp only [List.nodup_append, List.nodup_cons, List.nodup_nil]
      refine ⟨hnd, by simp, ?_⟩
      intro u hu
      simp only [List.mem_singleton]
      intro hq
      subst hq
      exact absurd (hnx _ hu) (by rw [hnew]; omega)
    · intro u hu
      rw [List.mem_append] at hu
      rcases hu with hu | hu
      · have := hnx u hu
        rw [DStore.next_newChunk]
        omega
      · simp only [List.mem_singleton] at hu
        subst hu
        rw [hnew, DStore.next_newChunk]
        omega
    · intro u hu
      rw [List.mem_append] at hu
      rcases hu with hu | hu
      · have hlt := hnx u hu
        rw [DStore.get_newChunk_lt _ _ hlt, DStore.has_newChunk_lt _ _ hlt]
        exact hst u hu
      · simp only [List.mem_singleton] at hu
        subst hu
        rw [DStore.get_newChunk_self, DStore.has_newChunk_self]
        simp

/-! ### Resize lemmas -/

theorem File.popChunks_len : ∀ (k : Nat) (f : File),
    (f.popChunks k).seq_chunks.length = f.seq_chunks.length - k ∧
    (f.popChunks k).seq_size = f.seq_size := by
  intro k
  induction k with
  | zero => exact fun f => ⟨by simp [File.popChunks], rfl⟩
  | succ k ih =>
    intro f
    unfold File.popChunks
    refine ⟨?_, ?_⟩
    · rw [(ih _).1]
      show f.seq_chunks.dropLast.length - k = _
      rw [List.length_dropLast]
      omega
    · exact (ih _).2

theorem File.resize_spec (f : File) (n : Nat) :
    (f.resize n).seq_size = n ∧
    (f.resize n).seq_chunks.length = n / CHUNK_SIZE + 1 := by
  unfold File.resize
  by_cases hcase : ({ f with seq_size := n } : File).seq_chunks.length < n / CHUNK_SIZE + 1
  · rw [if_pos hcase]
    obtain ⟨ext, hext, helen⟩ := File.appendChunks_seq
      (n / CHUNK_SIZE + 1 - ({ f with seq_size := n } : File).seq_chunks.length)
      { f with seq_size := n }
    obtain ⟨_, _, _, _, _, _, _, _, hfs⟩ := File.appendChunks_fields
      (n / CHUNK_SIZE + 1 - ({ f with seq_size := n } : File).seq_chunks.length)
      { f with seq_size := n }
    refine ⟨hfs, ?_⟩
    rw [hext, List.length_append, helen]
    omega
  · rw [if_neg hcase]
    obtain ⟨hpl, hps⟩ := File.popChunks_len
      (({ f with seq_size := n } : File).seq_chunks.length - (n / CHUNK_SIZE + 1))
      { f with seq_size := n }
    refine ⟨hps, ?_⟩
    rw [hpl]
    show f.seq_chunks.length - (f.seq_chunks.length - (n / CHUNK_SIZE + 1))
      = n / CHUNK_SIZE + 1
    have hcase2 : ¬ f.seq_chunks.length < n / CHUNK_SIZE + 1 := hcase
    exact Nat.sub_sub_self (Nat.le_of_not_lt hcase2)

theorem File.eta_seq_size {g : File} {n : Nat} (hg : g.seq_size = n) :
    ({ g with seq_size := n } : File) = g := by
  cases g
  simp_all

/-- Resizing to the size the sequence already has, with the chunk count
already matching, is the identity. -/
theorem File.resize_of_fixpoint {g : File} {n : Nat} (hs : g.seq_size = n)
    (hl : g.seq_chunks.length = n / CHUNK_SIZE + 1) : g.resize n = g := by
  unfold File.resize
  simp only [File.eta_seq_size hs]
  rw [if_neg (by omega)]
  have h1 : g.seq_chunks.length - (n / CHUNK_SIZE + 1) = 0 := by omega
  rw [h1]
  rfl

/-- Well-formedness and byte preservation for a growing `appendChunks`
step, phrased over the intermediate state whose size was already
updated. -/
theorem File.appendChunks_grow {f1 : File} {n k : Nat}
    (hsize : f1.seq_size = n)
    (hlen1 : f1.seq_chunks.length + k = n / CHUNK_SIZE + 1)
    (hnd : f1.seq_chunks.Nodup)
    (hcur : f1.seq_chunks.getD f1.chunk_index 0 = f1.chunk_uuid)
    (hcuridx : f1.chunk_index < f1.seq_chunks.length)
    (hdata : f1.chunk_data.length = CHUNK_SIZE)
    (hst : ∀ u ∈ f1.seq_chunks, f1.store.has u = true ∧ (f1.store.get u).length = CHUNK_SIZE)
    (hnx : ∀ u ∈ f1.seq_chunks, u < f1.store.next)
    (hpos : f1.chunk_position = f1.position % CHUNK_SIZE)
    (hposidx : f1.chunk_index = f1.position / CHUNK_SIZE)
    (hclean : f1.chunk_changed = false → f1.chunk_data = f1.store.get f1.chunk_uuid) :
    WF (f1.appendChunks k) ∧ ∀ i, i / CHUNK_SIZE < f1.seq_chunks.length →
      (f1.appendChunks k).byteAt i = f1.byteAt i := by
  obtain ⟨hfp, hfcp, hfci, hfcd, hfcc, hfcu, hfe, hff, hfs⟩ := File.appendChunks_fields k f1
  obtain ⟨ext, hext, helen⟩ := File.appendChunks_seq k f1
  obtain ⟨hinv1, hinv2, hinv3⟩ := File.appendChunks_inv k f1 hnd hnx hst
  have hcmem : f1.chunk_uuid ∈ f1.seq_chunks := hcur ▸ getD_mem hcuridx
  have hgetD : ∀ j, j < f1.seq_chunks.length →
      (f1.appendChunks k).seq_chunks.getD j 0 = f1.seq_chunks.getD j 0 := by
    intro j hj
    rw [hext]
    simp [List.getD_eq_getElem?_getD, List.getElem?_append_left hj]
  refine ⟨⟨?_, hinv1, ?_, ?_, ?_, hinv3, hinv2, ?_, ?_, ?_⟩, ?_⟩
  · rw [hext, List.length_append, helen, hfs, hsize]
    omega
  · rw [hfci, hfcu, hgetD _ hcuridx]
    exact hcur
  · rw [hfci, hext, List.length_append]
    omega
  · rw [hfcd]
    exact hdata
  · rw [hfcp, hfp]
    exact hpos
  · rw [hfci, hfp]
    exact hposidx
  · intro hch
    rw [hfcd, hfcu]
    rw [(File.appendChunks_store k f1 _ (hnx _ hcmem)).1]
    exact hclean (hfcc ▸ hch)
  · intro i hi
    unfold File.byteAt
    rw [hfci, hfcd]
    by_cases hc : i / CHUNK_SIZE = f1.chunk_index
    · rw [if_pos hc, if_pos hc]
    · rw [if_neg hc, if_neg hc, hgetD _ hi,
        (File.appendChunks_store k f1 _ (hnx _ (getD_mem hi))).1]

/-- A growing resize keeps the handle well-formed, does not move the
cursor or flags, sets the size, and preserves every logical byte of the
old chunk range. -/
theorem File.resize_grow {f : File} (hwf : WF f) {n : Nat} (hn : f.seq_size ≤ n) :
    WF (f.resize n) ∧ (f.resize n).position = f.position ∧
    (f.resize n).chunk_position = f.chunk_position ∧
    (f.resize n).end_of_sequence = f.end_of_sequence ∧
    (f.resize n).following_write = f.following_write ∧
    (f.resize n).seq_size = n ∧
    (∀ i, i / CHUNK_SIZE < f.seq_chunks.length →
      (f.resize n).byteAt i = f.byteAt i) := by
  unfold File.resize
  have hl : ({ f with seq_size := n } : File).seq_chunks.length = f.seq_chunks.length := rfl
  by_cases hcase : ({ f with seq_size := n } : File).seq_chunks.length < n / CHUNK_SIZE + 1
  · rw [if_pos hcase]
    rw [hl] at hcase
    have hgrow := @File.appendChunks_grow { f with seq_size := n } n
      (n / CHUNK_SIZE + 1 - ({ f with seq_size := n } : File).seq_chunks.length)
      rfl (by
        show f.seq_chunks.length + (n / CHUNK_SIZE + 1 - f.seq_chunks.length)
          = n / CHUNK_SIZE + 1
        omega) hwf.hnodup hwf.hcur hwf.hcuridx hwf.hdata
      hwf.hstore hwf.hnext hwf.hpos hwf.hposidx hwf.hclean
    obtain ⟨hfp, hfcp, hfci, hfcd, hfcc, hfcu, hfe, hff, hfs⟩ := File.appendChunks_fields
      (n / CHUNK_SIZE + 1 - ({ f with seq_size := n } : File).seq_chunks.length)
      { f with seq_size := n }
    exact ⟨hgrow.1, hfp, hfcp, hfe, hff, hfs, fun i hi => hgrow.2 i hi⟩
  · rw [if_neg hcase]
    rw [hl] at hcase
    have hexist : f.seq_chunks.length = n / CHUNK_SIZE + 1 := by
      have h1 := hwf.hlen
      have h2 : f.seq_size / CHUNK_SIZE ≤ n / CHUNK_SIZE := Nat.div_le_div_right hn
      omega
    have h0 : ({ f with seq_size := n } : File).seq_chunks.length - (n / CHUNK_SIZE + 1) = 0 := by
      rw [hl, hexist]
      omega
    rw [h0]
    exact ⟨⟨hexist, hwf.hnodup, hwf.hcur, hwf.hcuridx, hwf.hdata, hwf.hstore,
      hwf.hnext, hwf.hpos, hwf.hposidx, hwf.hclean⟩,
      rfl, rfl, rfl, rfl, rfl, fun i _ => rfl⟩

/-- Full characterisation of the write loop started inside the data
with enough room: it returns normally, stays well-formed, leaves the
cursor on the last written byte, and replaces exactly the bytes at
offsets `position .. position + length - 1` with the buffer. -/
theorem File.writeLoop_spec : ∀ (buf : List Nat) (f : File), WF f → buf ≠ [] →
    f.position + buf.length ≤ f.seq_size →
    ∃ g, f.writeLoop buf = .ok g ∧ WF g ∧
      g.position = f.position + (buf.length - 1) ∧
      g.seq_size = f.seq_size ∧ g.seq_chunks = f.seq_chunks ∧
      ∀ i, i / CHUNK_SIZE < f.seq_chunks.length →
        g.byteAt i = if f.position ≤ i ∧ i < f.position + buf.length
          then buf.getD (i - f.position) 0 else f.byteAt i := by
  intro buf
  induction buf with
  | nil =>
    intro f _ hne _
    exact absurd rfl hne
  | cons b rest ih =>
    intro f hwf _ hlen
    cases rest with
    | nil =>
      refine ⟨f.setByte b, rfl, File.setByte_wf hwf b, by simp [File.setByte], rfl, rfl, ?_⟩
      intro i hi
      rw [File.byteAt_setByte hwf]
      by_cases hip : i = f.position
      · rw [if_pos hip, if_pos (by subst hip; simp)]
        subst hip
        simp
      · have hnot : ¬ (f.position ≤ i ∧ i < f.position + (b :: ([] : List Nat)).length) := by
          simp only [List.length_cons, List.length_nil]
          omega
        rw [if_neg hip, if_neg hnot]
    | cons b2 rest2 =>
      have hwf1 := File.setByte_wf hwf b
      have hlen2 : (b :: b2 :: rest2).length = rest2.length + 2 := by simp
      rw [hlen2] at hlen
      have hlt : (f.setByte b).position + 1 < (f.setByte b).seq_size := by
        show f.position + 1 < f.seq_size
        omega
      have hok := File.seek_succ_ok hlt
      have hsp : (f.setByte b).position = f.position := rfl
      rw [hsp] at hok
      have hg1wf := File.seekTo_wf hwf1 (show f.position + 1 < (f.setByte b).seq_size from hlt)
      obtain ⟨hg1p, _, _, _, _, hg1chunks, hg1size, _⟩ :=
        File.seekTo_spec (f.setByte b) (f.position + 1)
      have hg1byte : ∀ i, i / CHUNK_SIZE < f.seq_chunks.length →
          ((f.setByte b).seekTo (f.position + 1)).byteAt i
            = if i = f.position then b else f.byteAt i := by
        intro i hi
        rw [File.seekTo_byteAt hwf1 (show f.position + 1 < (f.setByte b).seq_size from hlt) i hi,
          File.byteAt_setByte hwf]
      obtain ⟨g, hgeq, hgwf, hgpos, hgsize, hgchunks, hgbyte⟩ :=
        ih ((f.setByte b).seekTo (f.position + 1)) hg1wf (by simp)
          (by
            rw [hg1p, hg1size]
            show f.position + 1 + (b2 :: rest2).length ≤ f.seq_size
            simp only [List.length_cons]
            omega)
      refine ⟨g, ?_, hgwf, ?_, ?_, ?_, ?_⟩
      · rw [show File.writeLoop f (b :: b2 :: rest2)
            = match (f.setByte b).seek (((f.setByte b).position : Int) + 1) with
              | .ok f2 => f2.writeLoop (b2 :: rest2)
              | .error e => .error e from rfl]
        rw [hsp, hok]
        exact hgeq
      · rw [hgpos, hg1p]
        show f.position + 1 + ((b2 :: rest2).length - 1) = f.position + ((b :: b2 :: rest2).length - 1)
        simp only [List.length_cons]
        omega
      · rw [hgsize, hg1size]
        rfl
      · rw [hgchunks, hg1chunks]
        rfl
      · intro i hi
        have hgchunkslen : ((f.setByte b).seekTo (f.position + 1)).seq_chunks.length
            = f.seq_chunks.length := by
          rw [hg1chunks]
          rfl
        rw [hgbyte i (by rw [hgchunkslen]; exact hi), hg1p]
        by_cases hin : f.position ≤ i ∧ i < f.position + (b :: b2 :: rest2).length
        · rw [if_pos hin]
          by_cases hip : i = f.position
          · rw [if_neg (by omega), hg1byte i hi, if_pos hip]
            subst hip
            simp
          · have hge1 : f.position + 1 ≤ i := by omega
            have hlt1 : i < f.position + 1 + (b2 :: rest2).length := by
              simp only [List.length_cons] at hin ⊢
              omega
            rw [if_pos ⟨hge1, hlt1⟩]
            have hidx : i - f.position = (i - (f.position + 1)) + 1 := by omega
            rw [hidx]
            rfl
        · rw [if_neg hin]
          have hnotin : ¬ (f.position + 1 ≤ i ∧ i < f.position + 1 + (b2 :: rest2).length) := by
            simp only [List.length_cons] at hin ⊢
            omega
          have hip : ¬ i = f.position := by
            simp only [List.length_cons] at hin
            omega
          rw [if_neg hnotin, hg1byte i hi, if_neg hip]

/-- `write` on a handle not following a previous write, with a payload
that overruns the current size: the sequence grows to
`position + length`, the bytes land at `position ..`, and the cursor
rests on the last written byte. -/
theorem File.write_spec_grow {f : File} {buf : List Nat} (hwf : WF f)
    (hfw : f.following_write = false) (hne : buf ≠ [])
    (hgrow : f.seq_size < f.position + buf.length) :
    ∃ g, f.write buf = .ok g ∧ WF g ∧ g.seq_size = f.position + buf.length ∧
      g.position = f.position + (buf.length - 1) ∧ g.following_write = true ∧
      ∀ i, f.position ≤ i → i < f.position + buf.length →
        g.byteAt i = buf.getD (i - f.position) 0 := by
  have hlenpos : 0 < buf.length := List.length_pos.mpr hne
  unfold File.write
  rw [if_neg (by simp [hfw]), if_pos ⟨hfw, hlenpos, hgrow⟩]
  obtain ⟨hwfr, hrpos, hrcpos, hrend, hrfol, hrsize, hrbyte⟩ :=
    File.resize_grow hwf (le_of_lt hgrow)
  obtain ⟨g, hgeq, hgwf, hgpos, hgsize, hgchunks, hgbyte⟩ :=
    File.writeLoop_spec buf (f.resize (f.position + buf.length)) hwfr hne
      (by rw [hrpos, hrsize])
  refine ⟨{ g with following_write := true }, ?_, ?_, ?_, ?_, rfl, ?_⟩
  · simp only [hgeq]
  · exact ⟨hgwf.hlen, hgwf.hnodup, hgwf.hcur, hgwf.hcuridx, hgwf.hdata,
      hgwf.hstore, hgwf.hnext, hgwf.hpos, hgwf.hposidx, hgwf.hclean⟩
  · show g.seq_size = _
    rw [hgsize, hrsize]
  · show g.position = _
    rw [hgpos, hrpos]
  · intro i h1 h2
    show g.byteAt i = _
    have hi : i / CHUNK_SIZE < (f.resize (f.position + buf.length)).seq_chunks.length :=
      File.div_lt_chunks hwfr (by rw [hrsize]; omega)
    rw [hgbyte i hi, hrpos, if_pos ⟨h1, h2⟩]

theorem freshFile_store : freshFile.store = ⟨[(0, List.replicate CHUNK_SIZE 0)], 1⟩ := rfl

theorem freshFile_wf : WF freshFile := by
  refine ⟨?_, ?_, ?_, ?_, ?_, ?_, ?_, ?_, ?_, ?_⟩
  · show (1 : Nat) = 0 / CHUNK_SIZE + 1
    simp
  · show ([0] : List Nat).Nodup
    simp
  · rfl
  · show (0 : Nat) < 1
    omega
  · show (List.replicate CHUNK_SIZE 0).length = CHUNK_SIZE
    simp
  · intro u hu
    have hu0 : u = 0 := by simpa [freshFile] using hu
    subst hu0
    refine ⟨rfl, ?_⟩
    rw [show freshFile.store.get 0 = List.replicate CHUNK_SIZE 0 from rfl]
    simp
  · intro u hu
    have hu0 : u = 0 := by simpa [freshFile] using hu
    subst hu0
    show (0 : Nat) < 1
    omega
  · rfl
  · rfl
  · intro _
    rfl


theorem map_range'_eq (F : Nat → Nat) (l : List Nat)
    (h : ∀ i, i < l.length → F i = l.getD i 0) :
    (List.range' 0 l.length).map F = l := by
  apply List.ext_getElem
  · simp
  · intro i hi hj
    rw [List.getElem_map, List.getElem_range']
    have h1 : 0 + 1 * i = i := by omega
    rw [h1, h i hj, List.getD_eq_getElem l 0 hj]

/-- Writing any byte sequence on a fresh handle and reading the blob
back returns exactly that sequence, and the size equals its length. -/
theorem roundTrip_eq (buf : List Nat) : roundTrip buf = some (buf, buf.length) := by
  by_cases hb : buf = []
  · subst hb
    rfl
  · have hwf := freshFile_wf
    have hlenpos : 0 < buf.length := List.length_pos.mpr hb
    obtain ⟨g, hgeq, hgwf, hgsize, hgpos, hgfol, hgbyte⟩ :=
      File.write_spec_grow hwf rfl hb
        (show freshFile.seq_size < freshFile.position + buf.length by
          show (0 : Nat) < 0 + buf.length
          omega)
    have hgsize0 : g.seq_size = buf.length := by
      rw [hgsize]
      show 0 + buf.length = buf.length
      omega
    unfold roundTrip
    rw [hgeq]
    show g.readBack = _
    unfold File.readBack
    rw [if_neg (by rw [hgsize0]; omega)]
    have h1 : 0 < g.seq_size := by omega
    have hseek : g.seek 0 = .ok (g.seekTo 0) := by
      rw [File.seek_eq, if_neg (by omega)]
      rfl
    rw [hseek]
    obtain ⟨hsp, _, _, hsend, _, hschunks, hssize, _⟩ := File.seekTo_spec g 0
    have hswf := File.seekTo_wf hgwf h1
    show some (((g.seekTo 0).read none).1, (g.seekTo 0).seq_size) = _
    have hcount : (g.seekTo 0).seq_size - (g.seekTo 0).position = buf.length := by
      rw [hssize, hsp, hgsize0]
      omega
    have hps : (g.seekTo 0).position < (g.seekTo 0).seq_size := by
      rw [hsp, hssize]
      omega
    obtain ⟨hr1, hr2, hr3⟩ := File.readLoop_spec
      ((g.seekTo 0).seq_size - (g.seekTo 0).position) (g.seekTo 0) hswf hsend hps
    have hread : ((g.seekTo 0).read none).1
        = (File.readLoop ((g.seekTo 0).seq_size - (g.seekTo 0).position) (g.seekTo 0)).1 := by
      unfold File.read
      rw [if_neg (by rw [hsend]; simp)]
    rw [hread, hr1, Nat.min_self, hcount, hsp]
    have hbyteAll : ∀ i, i < buf.length → (g.seekTo 0).byteAt i = buf.getD i 0 := by
      intro i hi2
      have hchlen : i / CHUNK_SIZE < g.seq_chunks.length :=
        File.div_lt_chunks hgwf (by omega)
      rw [File.seekTo_byteAt hgwf h1 i hchlen]
      have h2 := hgbyte i (show freshFile.position ≤ i from Nat.zero_le i)
        (show i < freshFile.position + buf.length from by
          show i < 0 + buf.length
          omega)
      simpa using h2
    rw [map_range'_eq _ _ hbyteAll, hssize, hgsize0]

/-! ### Chunk-count invariant (reachable states) -/


theorem File.seek_seq {f : File} {p : Int} {g : File} (h : f.seek p = .ok g) :
    g.seq_chunks = f.seq_chunks ∧ g.seq_size = f.seq_size := by
  obtain ⟨hg, _, _⟩ := File.seek_ok_elim h
  subst hg
  obtain ⟨_, _, _, _, _, hc, hsz, _⟩ := File.seekTo_spec f p.toNat
  exact ⟨hc, hsz⟩

theorem File.writeLoop_seq : ∀ (buf : List Nat) (f g : File),
    f.writeLoop buf = .ok g →
    g.seq_chunks = f.seq_chunks ∧ g.seq_size = f.seq_size := by
  intro buf
  induction buf with
  | nil =>
    intro f g h
    simp only [File.writeLoop] at h
    injection h with h2
    subst h2
    exact ⟨rfl, rfl⟩
  | cons b rest ih =>
    cases rest with
    | nil =>
      intro f g h
      simp only [File.writeLoop] at h
      injection h with h2
      subst h2
      exact ⟨rfl, rfl⟩
    | cons b2 rest2 =>
      intro f g h
      rw [show File.writeLoop f (b :: b2 :: rest2)
          = match (f.setByte b).seek (((f.setByte b).position : Int) + 1) with
            | .ok f2 => f2.writeLoop (b2 :: rest2)
            | .error e => .error e from rfl] at h
      cases hs : (f.setByte b).seek (((f.setByte b).position : Int) + 1) with
      | ok f2 =>
        rw [hs] at h
        have h2 := ih f2 g h
        have h3 := File.seek_seq hs
        exact ⟨h2.1.trans h3.1, h2.2.trans h3.2⟩
      | error e =>
        rw [hs] at h
        exact absurd h (by simp)

/-- Every successful `write` leaves the chunk-count relation intact. -/
theorem File.write_chunksInv {f g : File} {buf : List Nat}
    (h : f.write buf = .ok g) (hinv : ChunksInv f) : ChunksInv g := by
  unfold File.write at h
  by_cases h1 : (f.following_write = true ∧ 0 < buf.length ∧
      f.seq_size < f.position + buf.length + 1)
  · rw [if_pos h1] at h
    cases hs : (f.resize (f.position + buf.length + 1)).seek
        (((f.resize (f.position + buf.length + 1)).position : Int) + 1) with
    | ok f2 =>
      rw [hs] at h
      dsimp only at h
      cases hw : f2.writeLoop buf with
      | ok f3 =>
        rw [hw] at h
        injection h with h2
        subst h2
        show f3.seq_chunks.length = f3.seq_size / CHUNK_SIZE + 1
        obtain ⟨hwc, hws⟩ := File.writeLoop_seq buf f2 f3 hw
        obtain ⟨hsc, hss⟩ := File.seek_seq hs
        obtain ⟨hrs, hrl⟩ := File.resize_spec f (f.position + buf.length + 1)
        rw [hwc, hws, hsc, hss, hrl, hrs]
      | error e =>
        rw [hw] at h
        exact absurd h (by simp)
    | error e =>
      rw [hs] at h
      exact absurd h (by simp)
  · rw [if_neg h1] at h
    by_cases h2 : (f.following_write = false ∧ 0 < buf.length ∧
        f.seq_size < f.position + buf.length)
    · rw [if_pos h2] at h
      cases hw : (f.resize (f.position + buf.length)).writeLoop buf with
      | ok f3 =>
        rw [hw] at h
        injection h with h3
        subst h3
        show f3.seq_chunks.length = f3.seq_size / CHUNK_SIZE + 1
        obtain ⟨hwc, hws⟩ := File.writeLoop_seq buf _ f3 hw
        obtain ⟨hrs, hrl⟩ := File.resize_spec f (f.position + buf.length)
        rw [hwc, hws, hrl, hrs]
      | error e =>
        rw [hw] at h
        exact absurd h (by simp)
    · rw [if_neg h2] at h
      cases hw : f.writeLoop buf with
      | ok f3 =>
        rw [hw] at h
        injection h with h3
        subst h3
        show f3.seq_chunks.length = f3.seq_size / CHUNK_SIZE + 1
        obtain ⟨hwc, hws⟩ := File.writeLoop_seq buf f f3 hw
        rw [hwc, hws]
        exact hinv
      | error e =>
        rw [hw] at h
        exact absurd h (by simp)

theorem File.resize_chunksInv (f : File) (n : Nat) : ChunksInv (f.resize n) := by
  obtain ⟨hs, hl⟩ := File.resize_spec f n
  show _ = _
  rw [hl, hs]

theorem File.truncate_chunksInv (f : File) (n : Option Nat) : ChunksInv (f.truncate n) := by
  cases n with
  | none => exact File.resize_chunksInv f (f.position + 1)
  | some m => exact File.resize_chunksInv f m

theorem reach_chunksInv {f : File} (h : Reach f) : ChunksInv f := by
  induction h with
  | fresh =>
    show (1 : Nat) = 0 / CHUNK_SIZE + 1
    simp
  | write buf hr heq ih => exact File.write_chunksInv heq ih
  | resize n hr ih => exact File.resize_chunksInv _ n
  | truncate n hr ih => exact File.truncate_chunksInv _ n

/-! ### Claim theorems for the blob store -/

/-- C1 (counterexample): the state reached by `resize(65536)` on a
fresh handle has size exactly one chunk capacity but 2 chunks, while
`ceil(size / chunk_capacity)` taken as at least 1 is 1 — the claimed
ceiling formula is false on the code. -/
theorem c1_counterexample :
    Reach (freshFile.resize CHUNK_SIZE) ∧
    (freshFile.resize CHUNK_SIZE).seq_size = CHUNK_SIZE ∧
    (freshFile.resize CHUNK_SIZE).seq_chunks.length = 2 ∧
    max 1 ((CHUNK_SIZE + CHUNK_SIZE - 1) / CHUNK_SIZE) = 1 :=
  ⟨Reach.resize CHUNK_SIZE Reach.fresh, by decide, by decide, by decide⟩

/-- C1 (amended): for every state reachable through the blob-store
operations (fresh `File`, `write`, `resize`, `truncate`), the number of
chunk ids equals `size / 65536 + 1` (floor division plus one) — not the
ceiling; the two agree except when the size is a positive multiple of
the chunk capacity, where the code keeps one extra chunk. -/
theorem c1_chunk_count_invariant {f : File} (h : Reach f) :
    f.seq_chunks.length = f.seq_size / CHUNK_SIZE + 1 :=
  reach_chunksInv h

theorem c1_chunk_count_invariant_witness :
    freshFile.seq_chunks.length = freshFile.seq_size / CHUNK_SIZE + 1 :=
  c1_chunk_count_invariant Reach.fresh

/-- C2: for each L in the claimed set (0, 1, chunk capacity, capacity
plus one, ten times capacity plus 37), writing a byte sequence of
length L at offset 0 on a fresh handle and reading the blob back yields
exactly the original bytes, and the size equals L. -/
theorem c2_round_trip (buf : List Nat)
    (h : buf.length = 0 ∨ buf.length = 1 ∨ buf.length = 65536 ∨
      buf.length = 65537 ∨ buf.length = 655397) :
    roundTrip buf = some (buf, buf.length) :=
  roundTrip_eq buf

theorem c2_round_trip_witness :
    ((List.replicate 655397 (7:Nat)).length = 0 ∨
      (List.replicate 655397 (7:Nat)).length = 1 ∨
      (List.replicate 655397 (7:Nat)).length = 65536 ∨
      (List.replicate 655397 (7:Nat)).length = 65537 ∨
      (List.replicate 655397 (7:Nat)).length = 655397) ∧
    roundTrip (List.replicate 655397 (7:Nat))
      = some (List.replicate 655397 (7:Nat), (List.replicate 655397 (7:Nat)).length) := by
  have hl : (List.replicate 655397 (7:Nat)).length = 655397 := List.length_replicate _ _
  exact ⟨Or.inr (Or.inr (Or.inr (Or.inr hl))),
    c2_round_trip _ (Or.inr (Or.inr (Or.inr (Or.inr hl))))⟩

/-- C3 (counterexample): on a fresh (empty) handle the cursor equals
the size (both 0) with the at-end flag clear, yet `read(5)` returns 1
byte (a zero byte from the blank chunk) instead of the claimed
`min(5, size - position) = 0` bytes. -/
theorem c3_counterexample :
    freshFile.end_of_sequence = false ∧
    (freshFile.read (some 5)).1.length = 1 ∧
    min 5 (freshFile.seq_size - freshFile.position) = 0 :=
  ⟨rfl, by decide, by decide⟩

/-- C3 (amended): on a well-formed handle whose cursor is strictly
below the size, with the at-end flag clear, `read(n)` returns exactly
`min(n, size - position)` bytes — the logical bytes stored at offsets
`position ..` — never raising (it is a total function), and the at-end
flag is set afterwards exactly when at least one byte was requested and
the read ran to the end of the data; when the at-end flag is set,
`read` returns the empty byte sequence.  The cursor-equals-size states
(empty file) are excluded: there the loop body runs once before the
bounds check and returns one spurious byte. -/
theorem c3_read_spec {f : File} (n : Nat) (hwf : WF f) :
    (f.end_of_sequence = false → f.position < f.seq_size →
      (f.read (some n)).1.length = min n (f.seq_size - f.position) ∧
      (f.read (some n)).1
        = (List.range' f.position (min n (f.seq_size - f.position))).map f.byteAt ∧
      ((f.read (some n)).2.end_of_sequence = true ↔
        (0 < n ∧ f.seq_size ≤ f.position + n))) ∧
    (f.end_of_sequence = true → (f.read (some n)).1 = []) := by
  constructor
  · intro hend hps
    have hred : f.read (some n) = File.readLoop n f := by
      unfold File.read
      rw [if_neg (by rw [hend]; simp)]
    obtain ⟨h1, h2, _⟩ := File.readLoop_spec n f hwf hend hps
    refine ⟨?_, ?_, ?_⟩
    · rw [hred, h1]
      simp [List.length_range']
    · rw [hred, h1]
    · rw [hred, h2]
      constructor
      · intro hb
        constructor
        · by_contra hn
          simp only [Nat.not_lt, Nat.le_zero] at hn
          subst hn
          simp at hb
        · by_contra hn
          rw [decide_eq_false hn] at hb
          simp at hb
      · intro ⟨ha, hb⟩
        rw [decide_eq_true ha, decide_eq_true hb]
        rfl
  · intro hend
    unfold File.read
    rw [if_pos hend]

theorem c3_read_spec_witness :
    ((freshFile.resize 1).read (some 1)).1.length
      = min 1 ((freshFile.resize 1).seq_size - (freshFile.resize 1).position) :=
  ((c3_read_spec 1 (File.resize_grow freshFile_wf (by decide)).1).1 (by decide) (by decide)).1

/-- C6: on a well-formed handle, `seek(p)` raises the out-of-range
error exactly when `p < 0` or `p ≥ size` (so `p = size` is never a
valid target and `p = size - 1` is valid whenever `size > 0`); on
success it sets the cursor to `p`, clears the at-end flag, and leaves
the size, chunk list, and every logical byte unchanged. -/
theorem c6_seek_spec {f : File} (hwf : WF f) (p : Int) :
    ((∃ e, f.seek p = .error e) ↔ (p < 0 ∨ (f.seq_size : Int) ≤ p)) ∧
    (∀ g, f.seek p = .ok g →
      g.position = p.toNat ∧ g.end_of_sequence = false ∧
      g.seq_size = f.seq_size ∧ g.seq_chunks = f.seq_chunks ∧
      ∀ i, i / CHUNK_SIZE < f.seq_chunks.length → g.byteAt i = f.byteAt i) := by
  refine ⟨File.seek_error_iff f p, ?_⟩
  intro g hg
  obtain ⟨hgeq, h0, hlt⟩ := File.seek_ok_elim hg
  subst hgeq
  obtain ⟨h1, _, _, h4, _, h6, h7, _⟩ := File.seekTo_spec f p.toNat
  have hpn : p.toNat < f.seq_size := by omega
  exact ⟨h1, h4, h7, h6, fun i hi => File.seekTo_byteAt hwf hpn i hi⟩

theorem c6_seek_spec_witness : ∃ e, freshFile.seek 0 = .error e :=
  (c6_seek_spec freshFile_wf 0).1.mpr (Or.inr (by decide))

/-- C9: `resize(n)` twice is the same as once — the repeated call
changes nothing: same chunk count, same logical size, same logical byte
content, indeed the same state. -/
theorem c9_resize_idempotent (f : File) (n : Nat) :
    ((f.resize n).resize n).seq_chunks.length = (f.resize n).seq_chunks.length ∧
    ((f.resize n).resize n).seq_size = (f.resize n).seq_size ∧
    (∀ i, ((f.resize n).resize n).byteAt i = (f.resize n).byteAt i) ∧
    (f.resize n).resize n = f.resize n := by
  have h := File.resize_of_fixpoint (File.resize_spec f n).1 (File.resize_spec f n).2
  exact ⟨by rw [h], by rw [h], fun i => by rw [h], h⟩


/-! ### LIKE pattern lemmas -/


theorem mem_suffixes : ∀ (s t : List Char), t ∈ suffixes s ↔ t <:+ s := by
  intro s
  induction s with
  | nil =>
    intro t
    show t ∈ [[]] ↔ _
    simp [List.suffix_nil]
  | cons a s ih =>
    intro t
    show t ∈ (a :: s) :: suffixes s ↔ _
    rw [List.mem_cons, ih t, List.suffix_cons_iff]

theorem likeMatch_percent (p s : List Char) :
    likeMatch ('%' :: p) s = (suffixes s).any (likeMatch p) := rfl

theorem likeMatch_plain {c : Char} (h1 : c ≠ '%') (h2 : c ≠ '_')
    (p s : List Char) :
    likeMatch (c :: p) s
      = (match s with | [] => false | a :: t => a == c && likeMatch p t) := by
  rw [likeMatch]
  rw [if_neg h1, if_neg h2]

theorem likeMatch_percent_pat : ∀ s : List Char, likeMatch ['%'] s = true := by
  intro s
  rw [likeMatch_percent, List.any_eq_true]
  exact ⟨[], (mem_suffixes s []).mpr List.nil_suffix, rfl⟩

theorem likeMatch_plain_iff {q : List Char} (hq : plainPattern q) :
    ∀ v, likeMatch q v = true ↔ v = q := by
  induction q with
  | nil =>
    intro v
    show v.isEmpty = true ↔ v = []
    simp [List.isEmpty_iff]
  | cons c q ih =>
    intro v
    obtain ⟨h1, h2, h3⟩ := hq c (List.mem_cons_self c q)
    have ih2 := ih (fun ch hch => hq ch (List.mem_cons_of_mem c hch))
    rw [likeMatch_plain h1 h2]
    cases v with
    | nil => simp
    | cons a t => simp [ih2 t, beq_iff_eq]

theorem likeMatch_prefix_iff {q : List Char} (hq : plainPattern q) :
    ∀ v, likeMatch (q ++ ['%']) v = true ↔ q <+: v := by
  induction q with
  | nil =>
    intro v
    show likeMatch ['%'] v = true ↔ [] <+: v
    simp [likeMatch_percent_pat v, List.nil_prefix]
  | cons c q ih =>
    intro v
    obtain ⟨h1, h2, h3⟩ := hq c (List.mem_cons_self c q)
    have ih2 := ih (fun ch hch => hq ch (List.mem_cons_of_mem c hch))
    show likeMatch (c :: (q ++ ['%'])) v = true ↔ c :: q <+: v
    rw [likeMatch_plain h1 h2]
    cases v with
    | nil => simp
    | cons a t =>
      simp only [Bool.and_eq_true, beq_iff_eq, ih2 t, List.cons_prefix_cons]
      exact and_congr_left (fun _ => eq_comm)

theorem likeMatch_lead_percent (q : List Char) :
    ∀ v, likeMatch ('%' :: q) v = true ↔ ∃ t, t <:+ v ∧ likeMatch q t = true := by
  intro v
  rw [likeMatch_percent, List.any_eq_true]
  constructor
  · rintro ⟨t, ht, hm⟩
    exact ⟨t, (mem_suffixes v t).mp ht, hm⟩
  · rintro ⟨t, ht, hm⟩
    exact ⟨t, (mem_suffixes v t).mpr ht, hm⟩

theorem likeMatch_contains_iff {q : List Char} (hq : plainPattern q) (v : List Char) :
    likeMatch ('%' :: (q ++ ['%'])) v = true ↔ q <:+: v := by
  rw [likeMatch_lead_percent]
  constructor
  · rintro ⟨t, ht, hm⟩
    rw [likeMatch_prefix_iff hq] at hm
    exact List.infix_iff_prefix_suffix.mpr ⟨t, hm, ht⟩
  · intro h
    obtain ⟨t, hp, hs⟩ := List.infix_iff_prefix_suffix.mp h
    exact ⟨t, hs, (likeMatch_prefix_iff hq t).mpr hp⟩

theorem likeMatch_endswith_iff {q : List Char} (hq : plainPattern q) (v : List Char) :
    likeMatch ('%' :: q) v = true ↔ q <:+ v := by
  rw [likeMatch_lead_percent]
  constructor
  · rintro ⟨t, ht, hm⟩
    rw [likeMatch_plain_iff hq] at hm
    subst hm
    exact ht
  · intro h
    exact ⟨q, h, (likeMatch_plain_iff hq q).mpr rfl⟩

/-! ### Query-engine lemmas -/


theorem find_objuuids_single (cmp : Operator → List Char → List Char → Option Bool)
    (idx : List IndexRow) (c a : String) (e : List Char)
    (op : Operator) (neg : Bool) (subj : List Char)
    (hp : parseExpression e = .ok (op, neg, subj)) :
    find_objuuids cmp idx c [(a, e)]
      = (1, .ok ((evalClause cmp idx c a op neg subj).dedup)) := by
  have h1 : processQueries cmp idx c [(a, e)]
      = (1, .ok [evalClause cmp idx c a op neg subj]) := by
    rw [processQueries, hp]
    rfl
  unfold find_objuuids
  rw [h1]
  show (1, Except.ok (intersectLists [evalClause cmp idx c a op neg subj])) = _
  have h2 : intersectLists [evalClause cmp idx c a op neg subj]
      = (evalClause cmp idx c a op neg subj).dedup := by
    unfold intersectLists
    simp
  rw [h2]

theorem mem_rowsFor (idx : List IndexRow) (c a : String) (r : IndexRow) :
    r ∈ rowsFor idx c a ↔ (r ∈ idx ∧ r.attr = a ∧ r.coluuid = c) := by
  unfold rowsFor
  rw [List.mem_filter]
  simp

/-- C10: `find_objuuids` with zero query clauses returns the empty
list (accessing the backing store zero times), not the set of all
objects in the collection. -/
theorem c10_empty_query (cmp : Operator → List Char → List Char → Option Bool)
    (idx : List IndexRow) (c : String) :
    find_objuuids cmp idx c [] = (0, .ok []) := rfl

/-- C5 (counterexample): a malformed second clause (`$bogus:y`) behind
a well-formed first clause (`$eq:x`) raises the hard `KeyError`, but
only after the first clause has already executed one backing-store
SELECT — not before any backing-store access as claimed. -/
theorem c5_counterexample :
    find_objuuids cmpNone [] "c" [("a", "$eq:x".toList), ("b", "$bogus:y".toList)]
      = (1, .error .keyError) ∧ (1 : Nat) ≠ 0 :=
  ⟨rfl, by omega⟩

/-- C5 (amended): a clause whose expression carries an unrecognized
operator token raises the hard `KeyError`; the malformed clause itself
and every clause after it trigger no backing-store access, but each
well-formed clause before it has already executed exactly one
backing-store query when the error is raised. -/
theorem c5_unknown_operator (cmp : Operator → List Char → List Char → Option Bool)
    (idx : List IndexRow) (c : String) (pre : List (String × List Char))
    (a : String) (e : List Char) (rest : List (String × List Char))
    (hpre : ∀ q ∈ pre, ∃ r, parseExpression q.2 = .ok r)
    (he : parseExpression e = .error .keyError) :
    find_objuuids cmp idx c (pre ++ (a, e) :: rest) = (pre.length, .error .keyError) := by
  suffices h : processQueries cmp idx c (pre ++ (a, e) :: rest)
      = (pre.length, .error .keyError) by
    unfold find_objuuids
    rw [h]
  induction pre with
  | nil =>
    show processQueries cmp idx c ((a, e) :: rest) = (0, .error .keyError)
    rw [processQueries, he]
  | cons q pre ih =>
    obtain ⟨qa, qe⟩ := q
    obtain ⟨⟨op, neg, subj⟩, hq⟩ := hpre (qa, qe) (List.mem_cons_self _ pre)
    have ih2 := ih (fun q2 hq2 => hpre q2 (List.mem_cons_of_mem _ hq2))
    show processQueries cmp idx c ((qa, qe) :: (pre ++ (a, e) :: rest))
      = (((qa, qe) :: pre).length, .error .keyError)
    rw [processQueries, hq, ih2]
    simp

theorem c5_unknown_operator_witness :
    find_objuuids cmpNone [] "c" ([("a", "$eq:x".toList)] ++ ("b", "$bogus:y".toList) :: [])
      = ((1 : Nat), .error .keyError) :=
  c5_unknown_operator cmpNone [] "c" [("a", "$eq:x".toList)] "b" "$bogus:y".toList []
    (by
      intro q hq
      have hq2 : q = ("a", "$eq:x".toList) := by simpa using hq
      subst hq2
      exact ⟨(.EQ, false, ['x']), rfl⟩)
    rfl

theorem mem_evalClause_eq_pos (cmp : Operator → List Char → List Char → Option Bool)
    (idx : List IndexRow) (c a : String) (subj : List Char) (u : String) :
    u ∈ evalClause cmp idx c a .EQ false subj
      ↔ ∃ r, r ∈ rowsFor idx c a ∧ r.objuuid = u ∧ r.value = subj := by
  show u ∈ ((rowsFor idx c a).filter (fun r => r.value == subj)).map IndexRow.objuuid ↔ _
  simp only [List.mem_map, List.mem_filter, beq_iff_eq]
  constructor
  · rintro ⟨r, ⟨h1, h2⟩, h3⟩
    exact ⟨r, h1, h3, h2⟩
  · rintro ⟨r, h1, h2, h3⟩
    exact ⟨r, ⟨h1, h3⟩, h2⟩

theorem mem_evalClause_eq_neg (cmp : Operator → List Char → List Char → Option Bool)
    (idx : List IndexRow) (c a : String) (subj : List Char) (u : String) :
    u ∈ evalClause cmp idx c a .EQ true subj
      ↔ ∃ r, r ∈ rowsFor idx c a ∧ r.objuuid = u ∧ r.value ≠ subj := by
  show u ∈ ((rowsFor idx c a).filter (fun r => r.value != subj)).map IndexRow.objuuid ↔ _
  simp only [List.mem_map, List.mem_filter, bne_iff_ne]
  constructor
  · rintro ⟨r, ⟨h1, h2⟩, h3⟩
    exact ⟨r, h1, h3, h2⟩
  · rintro ⟨r, h1, h2, h3⟩
    exact ⟨r, ⟨h1, h3⟩, h2⟩

/-- C7: with the index table's primary key — one row per
(objuuid, attribute) — the set of ids returned by `$!eq:subject` is
exactly the complement, within the ids indexed for that attribute in
that collection, of the set returned by `$eq:subject`. -/
theorem c7_negation_complement (cmp : Operator → List Char → List Char → Option Bool)
    (idx : List IndexRow) (c a : String) (subj : List Char)
    (hPK : ∀ r1 ∈ idx, ∀ r2 ∈ idx,
      r1.objuuid = r2.objuuid → r1.attr = r2.attr → r1 = r2) :
    ∃ posl negl : List String,
      find_objuuids cmp idx c [(a, '$' :: 'e' :: 'q' :: ':' :: subj)] = (1, .ok posl) ∧
      find_objuuids cmp idx c [(a, '$' :: '!' :: 'e' :: 'q' :: ':' :: subj)] = (1, .ok negl) ∧
      ∀ u, u ∈ negl ↔ (u ∈ (rowsFor idx c a).map IndexRow.objuuid ∧ u ∉ posl) := by
  refine ⟨_, _, find_objuuids_single cmp idx c a _ .EQ false subj rfl,
    find_objuuids_single cmp idx c a _ .EQ true subj rfl, ?_⟩
  intro u
  rw [List.mem_dedup, mem_evalClause_eq_neg]
  constructor
  · rintro ⟨r, hr, hru, hrv⟩
    obtain ⟨hidx, hattr, hcol⟩ := (mem_rowsFor idx c a r).mp hr
    refine ⟨List.mem_map.mpr ⟨r, hr, hru⟩, ?_⟩
    intro hpos
    rw [List.mem_dedup, mem_evalClause_eq_pos] at hpos
    obtain ⟨r2, hr2, hru2, hrv2⟩ := hpos
    obtain ⟨hidx2, hattr2, hcol2⟩ := (mem_rowsFor idx c a r2).mp hr2
    have heq : r = r2 := hPK r hidx r2 hidx2 (hru.trans hru2.symm) (hattr.trans hattr2.symm)
    exact hrv (heq ▸ hrv2)
  · rintro ⟨hmem, hnot⟩
    obtain ⟨r, hr, hru⟩ := List.mem_map.mp hmem
    by_cases hv : r.value = subj
    · exact absurd (by
        rw [List.mem_dedup, mem_evalClause_eq_pos]
        exact ⟨r, hr, hru, hv⟩) hnot
    · exact ⟨r, hr, hru, hv⟩

theorem c7_negation_complement_witness :
    ∃ posl negl : List String,
      find_objuuids cmpNone
          [⟨"u1", "c", "a", ['x']⟩, ⟨"u2", "c", "a", ['y']⟩] "c"
          [("a", '$' :: 'e' :: 'q' :: ':' :: ['x'])] = (1, .ok posl) ∧
      find_objuuids cmpNone
          [⟨"u1", "c", "a", ['x']⟩, ⟨"u2", "c", "a", ['y']⟩] "c"
          [("a", '$' :: '!' :: 'e' :: 'q' :: ':' :: ['x'])] = (1, .ok negl) ∧
      ∀ u, u ∈ negl ↔
        (u ∈ (rowsFor [⟨"u1", "c", "a", ['x']⟩, ⟨"u2", "c", "a", ['y']⟩] "c" "a").map
            IndexRow.objuuid ∧ u ∉ posl) :=
  c7_negation_complement cmpNone
    [⟨"u1", "c", "a", ['x']⟩, ⟨"u2", "c", "a", ['y']⟩] "c" "a" ['x'] (by decide)

/-- C8 (counterexample): the operand `_` is an SQL LIKE wildcard, so
`$contains:_` matches the indexed value `x` even though `_` is not a
substring of `x` — inclusion is not an exact substring check for every
operand. -/
theorem c8_counterexample :
    (find_objuuids cmpNone [⟨"u1", "c", "a", ['x']⟩] "c"
        [("a", "$contains:_".toList)]).2 = .ok ["u1"] ∧
    ¬ (['_'] <:+: ['x']) :=
  ⟨rfl, by decide⟩

/-- C8 (amended): `$contains:` with the empty operand matches every
object indexed for the attribute; and for every operand free of the
LIKE metacharacters (`%`, `_`, backslash) the contains/startswith/
endswith patterns the code issues decide inclusion by a case-sensitive
exact substring / prefix / suffix check of the operand against the
stored value; operands containing a metacharacter are instead
interpreted by LIKE wildcard matching. -/
theorem c8_pattern_operators :
    (∀ (cmp : Operator → List Char → List Char → Option Bool)
        (idx : List IndexRow) (c a : String),
      ∃ l, find_objuuids cmp idx c [(a, "$contains:".toList)] = (1, .ok l) ∧
        ∀ u, u ∈ l ↔ u ∈ (rowsFor idx c a).map IndexRow.objuuid) ∧
    (∀ subj v : List Char, plainPattern subj →
      (likeMatch ('%' :: (subj ++ ['%'])) v = true ↔ subj <:+: v) ∧
      (likeMatch (subj ++ ['%']) v = true ↔ subj <+: v) ∧
      (likeMatch ('%' :: subj) v = true ↔ subj <:+ v)) := by
  constructor
  · intro cmp idx c a
    refine ⟨_, find_objuuids_single cmp idx c a _ .CONTAINS false [] rfl, ?_⟩
    intro u
    rw [List.mem_dedup]
    show u ∈ ((rowsFor idx c a).filter
      (fun r => likeMatch ('%' :: (([] : List Char) ++ ['%'])) r.value)).map IndexRow.objuuid ↔ _
    have hall : ∀ r : IndexRow,
        likeMatch ('%' :: (([] : List Char) ++ ['%'])) r.value = true := by
      intro r
      exact (likeMatch_contains_iff (fun ch hch => absurd hch (List.not_mem_nil ch))
        r.value).mpr List.nil_infix
    rw [List.filter_eq_self.mpr (fun r _ => hall r)]
  · intro subj v hq
    exact ⟨likeMatch_contains_iff hq v, likeMatch_prefix_iff hq v,
      likeMatch_endswith_iff hq v⟩

theorem c8_pattern_operators_witness :
    (likeMatch ('%' :: ((['a', 'b']) ++ ['%'])) ['z', 'a', 'b'] = true
      ↔ ['a', 'b'] <:+: ['z', 'a', 'b']) ∧
    (likeMatch ((['a', 'b']) ++ ['%']) ['z', 'a', 'b'] = true
      ↔ ['a', 'b'] <+: ['z', 'a', 'b']) ∧
    (likeMatch ('%' :: ['a', 'b']) ['z', 'a', 'b'] = true
      ↔ ['a', 'b'] <:+ ['z', 'a', 'b']) :=
  c8_pattern_operators.2 ['a', 'b'] ['z', 'a', 'b'] (by unfold plainPattern; decide)

/-! ### set_object lemmas -/

theorem find?_objects_upd {V : Type} (l : List (String × String × V)) (o : String) (stored : V) :
    List.find? (fun p => p.1 == o)
        (l.map (fun p => if p.1 == o then (o, (p.2.1, stored)) else p))
      = (List.find? (fun p => p.1 == o) l).map
          (fun p => if p.1 == o then (o, (p.2.1, stored)) else p) := by
  rw [List.find?_map]
  have hpred : ((fun p : String × String × V => p.1 == o) ∘
      (fun p => if p.1 == o then (o, (p.2.1, stored)) else p))
        = fun p : String × String × V => p.1 == o := by
    funext p
    by_cases h : p.1 == o
    · simp only [Function.comp_apply, if_pos h]
      rw [h]
      simp
    · simp only [Function.comp_apply, if_neg h]
  rw [hpred]

theorem lookupObj_upd {V : Type} (s : DocState V) (o : String) (stored : V)
    (c0 : String) (v0 : V) (hobj : lookupObj s o = some (c0, v0))
    (att : List (String × String × String)) (ind : List IndexRow) :
    lookupObj (⟨s.objects.map (fun p => if p.1 == o then (o, (p.2.1, stored)) else p),
        att, ind⟩ : DocState V) o = some (c0, stored) := by
  unfold lookupObj at hobj ⊢
  show (List.find? (fun p => p.1 == o)
    (s.objects.map (fun p => if p.1 == o then (o, (p.2.1, stored)) else p))).map
      (fun p => p.2) = _
  rw [find?_objects_upd]
  cases hf : List.find? (fun p => p.1 == o) s.objects with
  | none =>
    rw [hf] at hobj
    simp at hobj
  | some p =>
    rw [hf] at hobj
    simp only [Option.map_some'] at hobj
    have hk : (p.1 == o) = true := by
      have h1 := List.find?_some hf
      simpa using h1
    simp only [Option.map_some', if_pos hk]
    have hp2 : p.2 = (c0, v0) := by simpa using hobj
    rw [hp2]

theorem set_object_foldl {V : Type} (M : DocModel V) (o c : String) (val : V) :
    ∀ (l : List (String × String)) (acc1 : List IndexRow) (acc2 : List String),
    l.foldl (fun acc ap =>
        match M.extract ap.2 val with
        | some str => (acc.1 ++ [⟨o, c, ap.1, str⟩], acc.2)
        | none => (acc.1, acc.2 ++ [ap.1])) (acc1, acc2)
      = (acc1 ++ l.filterMap (fun ap =>
            (M.extract ap.2 val).map (fun str => (⟨o, c, ap.1, str⟩ : IndexRow))),
         acc2 ++ l.filterMap (fun ap =>
            match M.extract ap.2 val with
            | none => some ap.1
            | some _ => none)) := by
  intro l
  induction l with
  | nil =>
    intro acc1 acc2
    simp
  | cons ap l ih =>
    intro acc1 acc2
    rw [List.foldl_cons]
    cases hx : M.extract ap.2 val with
    | some str =>
      simp only [hx, List.filterMap_cons, Option.map_some']
      rw [ih]
      simp
    | none =>
      simp only [hx, List.filterMap_cons]
      rw [ih]
      simp

/-- The value of `set_object` on a state where the object exists. -/
theorem set_object_eq {V : Type} (M : DocModel V) (s : DocState V) (c o : String) (v : V)
    (c0 : String) (v0 : V) (hobj : lookupObj s o = some (c0, v0)) :
    set_object M s c o v
      = (⟨s.objects.map (fun p => if p.1 == o then (o, (p.2.1, M.injectIds o c v)) else p),
          s.attributes,
          s.index.filter (fun r => r.objuuid != o)
            ++ (list_attributes s c).filterMap (fun ap =>
                (M.extract ap.2 (M.injectIds o c v)).map
                  (fun str => (⟨o, c, ap.1, str⟩ : IndexRow)))⟩,
         (list_attributes s c).filterMap (fun ap =>
            match M.extract ap.2 (M.injectIds o c v) with
            | none => some ap.1
            | some _ => none)) := by
  unfold set_object
  have hlook := lookupObj_upd s o (M.injectIds o c v) c0 v0 hobj
    s.attributes (s.index.filter (fun r => r.objuuid != o))
  simp only [hlook]
  rw [show list_attributes
      (⟨s.objects.map (fun p => if p.1 == o then (o, (p.2.1, M.injectIds o c v)) else p),
        s.attributes, s.index.filter (fun r => r.objuuid != o)⟩ : DocState V) c
    = list_attributes s c from rfl]
  rw [set_object_foldl]
  simp

theorem newRows_objuuid {V : Type} (M : DocModel V) (s : DocState V) (c o : String)
    (stored : V) :
    ∀ r ∈ (list_attributes s c).filterMap (fun ap =>
        (M.extract ap.2 stored).map (fun str => (⟨o, c, ap.1, str⟩ : IndexRow))),
      r.objuuid = o := by
  intro r hr
  rw [List.mem_filterMap] at hr
  obtain ⟨ap, _, hback⟩ := hr
  rw [Option.map_eq_some'] at hback
  obtain ⟨str, _, hmk⟩ := hback
  rw [← hmk]

/-- C4: after a successful `set_object(coluuid, objuuid, value)` on an
existing object, the index rows keyed by that objuuid are exactly one
row per declared attribute of the collection whose path extraction
from the just-committed (id-stamped) value succeeds, each holding the
stringified extracted value; rows of other objects are untouched; an
extraction failure omits only its own row and is surfaced as a
warning, never aborting the write; and committing the same value again
produces the identical state and warnings. -/
theorem c4_set_object {V : Type} (M : DocModel V) (s : DocState V) (c o : String) (v : V)
    (c0 : String) (v0 : V) (hobj : lookupObj s o = some (c0, v0)) :
    ((set_object M s c o v).1.index.filter (fun r => r.objuuid == o)
        = (list_attributes s c).filterMap (fun ap =>
            (M.extract ap.2 (M.injectIds o c v)).map
              (fun str => (⟨o, c, ap.1, str⟩ : IndexRow)))) ∧
    ((set_object M s c o v).1.index.filter (fun r => r.objuuid != o)
        = s.index.filter (fun r => r.objuuid != o)) ∧
    ((set_object M s c o v).2
        = (list_attributes s c).filterMap (fun ap =>
            match M.extract ap.2 (M.injectIds o c v) with
            | none => some ap.1
            | some _ => none)) ∧
    (set_object M (set_object M s c o v).1 c o v = set_object M s c o v) := by
  have E := set_object_eq M s c o v c0 v0 hobj
  have hrowso := newRows_objuuid M s c o (M.injectIds o c v)
  have hfilterA : ((s.index.filter (fun r => r.objuuid != o)).filter
      (fun r => r.objuuid == o)) = [] := by
    rw [List.filter_eq_nil_iff]
    intro r hr
    have h2 := (List.mem_filter.mp hr).2
    simp only [bne_iff_ne] at h2
    simp [h2]
  have hfilterB : (((list_attributes s c).filterMap (fun ap =>
      (M.extract ap.2 (M.injectIds o c v)).map
        (fun str => (⟨o, c, ap.1, str⟩ : IndexRow)))).filter
          (fun r => r.objuuid == o))
      = (list_attributes s c).filterMap (fun ap =>
          (M.extract ap.2 (M.injectIds o c v)).map
            (fun str => (⟨o, c, ap.1, str⟩ : IndexRow))) := by
    rw [List.filter_eq_self]
    intro r hr
    simp [hrowso r hr]
  have hfilterC : ((s.index.filter (fun r => r.objuuid != o)).filter
      (fun r => r.objuuid != o)) = s.index.filter (fun r => r.objuuid != o) := by
    rw [List.filter_eq_self]
    intro r hr
    exact (List.mem_filter.mp hr).2
  have hfilterD : (((list_attributes s c).filterMap (fun ap =>
      (M.extract ap.2 (M.injectIds o c v)).map
        (fun str => (⟨o, c, ap.1, str⟩ : IndexRow)))).filter
          (fun r => r.objuuid != o)) = [] := by
    rw [List.filter_eq_nil_iff]
    intro r hr
    simp [hrowso r hr]
  refine ⟨?_, ?_, ?_, ?_⟩
  · rw [E]
    show ((s.index.filter (fun r => r.objuuid != o) ++ _).filter (fun r => r.objuuid == o)) = _
    rw [List.filter_append, hfilterA, hfilterB, List.nil_append]
  · rw [E]
    show ((s.index.filter (fun r => r.objuuid != o) ++ _).filter (fun r => r.objuuid != o)) = _
    rw [List.filter_append, hfilterC, hfilterD, List.append_nil]
  · rw [E]
  · have hobj1 : lookupObj (set_object M s c o v).1 o = some (c0, M.injectIds o c v) := by
      rw [E]
      exact lookupObj_upd s o (M.injectIds o c v) c0 v0 hobj s.attributes _
    have E2 := set_object_eq M (set_object M s c o v).1 c o v c0 (M.injectIds o c v) hobj1
    rw [E2]
    rw [E]
    have hattr : (⟨(s.objects.map (fun p =>
          if p.1 == o then (o, (p.2.1, M.injectIds o c v)) else p)),
        s.attributes,
        s.index.filter (fun r => r.objuuid != o)
          ++ (list_attributes s c).filterMap (fun ap =>
              (M.extract ap.2 (M.injectIds o c v)).map
                (fun str => (⟨o, c, ap.1, str⟩ : IndexRow)))⟩ : DocState V).attributes
        = s.attributes := rfl
    have hmapmap : ((s.objects.map (fun p =>
          if p.1 == o then (o, (p.2.1, M.injectIds o c v)) else p)).map (fun p =>
          if p.1 == o then (o, (p.2.1, M.injectIds o c v)) else p))
        = s.objects.map (fun p =>
          if p.1 == o then (o, (p.2.1, M.injectIds o c v)) else p) := by
      rw [List.map_map]
      apply List.map_congr_left
      intro p _
      by_cases h : (p.1 == o) = true
      · simp only [Function.comp_apply, if_pos h]
        simp
      · simp only [Function.comp_apply, if_neg h]
    have hidx : ((s.index.filter (fun r => r.objuuid != o)
          ++ (list_attributes s c).filterMap (fun ap =>
              (M.extract ap.2 (M.injectIds o c v)).map
                (fun str => (⟨o, c, ap.1, str⟩ : IndexRow)))).filter
            (fun r => r.objuuid != o))
        = s.index.filter (fun r => r.objuuid != o) := by
      rw [List.filter_append, hfilterC, hfilterD, List.append_nil]
    dsimp only
    have hla : list_attributes (⟨(s.objects.map (fun p =>
          if p.1 == o then (o, (p.2.1, M.injectIds o c v)) else p)),
        s.attributes,
        s.index.filter (fun r => r.objuuid != o)
          ++ (list_attributes s c).filterMap (fun ap =>
              (M.extract ap.2 (M.injectIds o c v)).map
                (fun str => (⟨o, c, ap.1, str⟩ : IndexRow)))⟩ : DocState V) c
        = list_attributes s c := rfl
    rw [hla, hmapmap, hidx]


theorem c4_set_object_witness :
    (set_object MW sW "c1" "o1" 7).1.index.filter (fun r => r.objuuid == "o1")
      = (list_attributes sW "c1").filterMap (fun ap =>
          (MW.extract ap.2 (MW.injectIds "o1" "c1" 7)).map
            (fun str => (⟨"o1", "c1", ap.1, str⟩ : IndexRow))) :=
  (c4_set_object MW sW "c1" "o1" 7 "c1" 5 rfl).1

end Ctrlpy
